import Mathlib

/-!
Verification of the dataflow graph engine of the `node_editor` widget
(`src/widget/node_editor.rs`).

The engine is embedded shallowly:
* `Node`, `InputId`, `OutputId` mirror the identifier types.
* The type-erased `Value(Option<Rc<dyn Any>>)` cell is modelled by
  `Option Dyn` for a closed universe `Dyn` of payload types; the checked
  downcast is a partial projection out of `Dyn`.
* The `HashMap` link table and value cache are modelled by association
  lists whose `insert` replaces every binding of the key, a deterministic
  refinement of the source's hash maps (iteration order is the list
  order).
* The graph-wide evaluation callback `fn(&mut T, Data<'_>)` becomes a pure
  function `T → Data → T × Values` returning the mutated state and the
  mutated value cache.
* The `while let Some(..) = pending.pop_front()` loops of `invalidate`,
  `dependencies` and `schedule` become fuel-indexed recursions returning
  `none` on fuel exhaustion; sufficiency of the chosen fuel is proved.
-/

set_option maxHeartbeats 1600000

namespace NodeEditor

/-- Node identifier: `struct Node(u64)`, a monotonically assigned integer. -/
abbrev Node := Nat

/-- `struct InputId { node: Node, name: &'static str }`. -/
structure InputId where
  node : Node
  name : String
deriving DecidableEq

/-- `struct OutputId { node: Node, name: &'static str }`. -/
structure OutputId where
  node : Node
  name : String
deriving DecidableEq

/-- Closed universe of payloads standing for `Rc<dyn Any>`. -/
inductive Dyn where
  | natV : Nat → Dyn
  | strV : String → Dyn
deriving DecidableEq

/-- The checked downcast `downcast_ref::<Nat>` as a partial projection. -/
def Dyn.asNat : Dyn → Option Nat
  | .natV n => some n
  | _ => none

/-- `Value(Option<Rc<dyn Any>>)`: an optional, type-erased committed value. -/
abbrev Value := Option Dyn

/-- The link table `HashMap<InputId, OutputId>`, as an association list. -/
abbrev Links := List (InputId × OutputId)

/-- The value cache `HashMap<OutputId, Value>`, as an association list. -/
abbrev Values := List (OutputId × Value)

/-- `HashMap::get`, on the association-list model. -/
def lookupA [DecidableEq α] : List (α × β) → α → Option β
  | [], _ => none
  | p :: ps, k => if p.1 = k then some p.2 else lookupA ps k

/-- `HashMap::remove`: drop every binding of the key. -/
def removeA [DecidableEq α] : List (α × β) → α → List (α × β)
  | [], _ => []
  | p :: ps, k => if p.1 = k then removeA ps k else p :: removeA ps k

/-- `HashMap::insert`: replace any existing binding. -/
def insertA [DecidableEq α] (m : List (α × β)) (k : α) (v : β) : List (α × β) :=
  removeA m k ++ [(k, v)]

/-- `links.get(&input)`. -/
def lookupL (links : Links) (i : InputId) : Option OutputId :=
  lookupA links i

/-- `links.remove(&input)`. -/
def removeL (links : Links) (i : InputId) : Links :=
  removeA links i

/-- `links.insert(input, output)`. -/
def insertL (links : Links) (i : InputId) (o : OutputId) : Links :=
  insertA links i o

/-- `values.get(&output)`. -/
def lookupV (values : Values) (o : OutputId) : Option Value :=
  lookupA values o

/-- `values.remove(&output)`. -/
def removeV (values : Values) (o : OutputId) : Values :=
  removeA values o

/-- `values.insert(output, value)`. -/
def insertV (values : Values) (o : OutputId) (v : Value) : Values :=
  insertA values o v

/-- `Data<'a>`: the accessor handed to evaluation callbacks, scoped to the
current link table and value cache. -/
structure Data where
  links : Links
  values : Values

/-- `Data::get`, up to (but not including) the typed downcast: resolve the
input's linked output, look it up in the cache, unwrap the optional cell. -/
def Data.get (d : Data) (i : InputId) : Option Dyn :=
  (lookupL d.links i).bind fun o => (lookupV d.values o).bind id

/-- `Data::get::<Nat>`: `Data.get` followed by the checked downcast. -/
def Data.getNat (d : Data) (i : InputId) : Option Nat :=
  (d.get i).bind Dyn.asNat

/-- `Data::set`. -/
def Data.set (d : Data) (o : OutputId) (v : Dyn) : Data :=
  { d with values := insertV d.values o (some v) }

/-- `Data::set_with`: commit whatever the closure produces (possibly nothing). -/
def Data.setWith (d : Data) (o : OutputId) (f : Data → Option Dyn) : Data :=
  { d with values := insertV d.values o (f d) }

/-- `struct State<T, Renderer>`: one node record.  The render-only fields
(`size`, the canvas cache) are outside the engine and omitted; `position`
is kept as the already-rounded integer pair. -/
structure State (T : Type) where
  id : Node
  state : T
  position : Int × Int
  inputs : List InputId
  outputs : List OutputId

/-- `State::is_root`: no input is currently linked. -/
def State.isRoot (st : State T) (links : Links) : Bool :=
  st.inputs.all fun i => (lookupL links i).isNone

/-- Registry lookup `nodes.get(&node)` on the insertion-ordered map. -/
def lookupN (nodes : List (Node × State T)) (n : Node) : Option (State T) :=
  lookupA nodes n

/-- In-place mutation of the record stored under a key (`get_mut`). -/
def updateN (nodes : List (Node × State T)) (n : Node) (st : State T) :
    List (Node × State T) :=
  nodes.map fun p => if p.1 = n then (n, st) else p

/-- `IndexMap::insert`: replace in place when present, else append. -/
def insertN (nodes : List (Node × State T)) (n : Node) (st : State T) :
    List (Node × State T) :=
  if (lookupN nodes n).isSome then updateN nodes n st else nodes ++ [(n, st)]

/-- `struct Graph<T>`: node registry (insertion ordered), link table, value
cache, id counter and the shared evaluation callback.  The channel and the
pan/zoom interaction cells serve only the excluded UI collaborator. -/
structure Graph (T : Type) where
  nodes : List (Node × State T)
  links : Links
  values : Values
  current : Nat
  evaluate : T → Data → T × Values

/-- `Graph::new`. -/
def Graph.new (ev : T → Data → T × Values) : Graph T :=
  { nodes := [], links := [], values := [], current := 0, evaluate := ev }

/-- `Graph::get`. -/
def Graph.get (g : Graph T) (n : Node) : Option T :=
  (lookupN g.nodes n).map State.state

/-- `Graph::evaluate` (the private method): clear the node's own cached
outputs, then run the shared callback on its state with a `Data` view. -/
def evaluateNode (g : Graph T) (n : Node) : Graph T :=
  match lookupN g.nodes n with
  | none => g
  | some st =>
    let cleared := st.outputs.foldl removeV g.values
    let r := g.evaluate st.state { links := g.links, values := cleared }
    { g with nodes := updateN g.nodes n { st with state := r.1 }, values := r.2 }

/-- The inputs currently linked to one of `n`'s outputs, owner nodes in
link-table order: `links.iter().filter(|(_, o)| o.node == n).map(|(i, _)| i)`. -/
def dependantsOf (links : Links) (n : Node) : List Node :=
  (links.filter fun l => l.2.node = n).map fun l => l.1.node

/-- The push loop of `Graph::invalidate`: enqueue each dependant unless it
is already visited or already pending. -/
def pushPending (visited : List Node) (pending : List Node) (ds : List Node) :
    List Node :=
  ds.foldl (fun p d => if d ∈ visited ∨ d ∈ p then p else p ++ [d]) pending

/-- The breadth-first loop of `Graph::invalidate`, fuel-indexed.  Returns the
final graph and the sequence of nodes popped from the queue (the evaluation
order), or `none` if the fuel runs out with a nonempty queue. -/
def invalidateAux (g : Graph T) :
    Nat → List Node → List Node → Option (Graph T × List Node)
  | 0, pending, _ => if pending.isEmpty then some (g, []) else none
  | fuel + 1, pending, visited =>
    match pending with
    | [] => some (g, [])
    | n :: rest =>
      let g1 := evaluateNode g n
      let pending1 := pushPending visited rest (dependantsOf g1.links n)
      let visited1 := if n ∈ visited then visited else n :: visited
      (invalidateAux g1 fuel pending1 visited1).map fun r => (r.1, n :: r.2)

/-- Fuel sufficient for `invalidateAux` (proved below): every node popped is
either the origin or the owner of a linked input, and each is popped at most
twice. -/
def invFuel (g : Graph T) : Nat :=
  2 * (g.links.length + 1) + 1

/-- `Graph::invalidate`. -/
def Graph.invalidate (g : Graph T) (n : Node) : Graph T :=
  ((invalidateAux g (invFuel g) [n] []).map Prod.fst).getD g

/-- The evaluation order of an invalidation pass rooted at `n`. -/
def invTrace (g : Graph T) (n : Node) : List Node :=
  ((invalidateAux g (invFuel g) [n] []).map Prod.snd).getD []

/-- The pre-invalidation stage of `Graph::update`: run `f` on the node's
state with a `Data` view, committing its state and value mutations. -/
def updateBase [Inhabited O] (g : Graph T) (n : Node)
    (f : T → Data → T × Values × O) : Graph T × O :=
  match lookupN g.nodes n with
  | none => (g, default)
  | some st =>
    let r := f st.state { links := g.links, values := g.values }
    ({ g with nodes := updateN g.nodes n { st with state := r.1 },
              values := r.2.1 }, r.2.2)

/-- `Graph::update`: mutate the node's state through `f` (which also gets a
`Data` view and may return a result), then invalidate the node; a missing
node returns the default result and changes nothing. -/
def Graph.update [Inhabited O] (g : Graph T) (n : Node)
    (f : T → Data → T × Values × O) : Graph T × O :=
  match lookupN g.nodes n with
  | none => (g, default)
  | some _ => ((updateBase g n f).1.invalidate n, (updateBase g n f).2)

/-- `Graph::input`, up to (but not including) the typed downcast. -/
def Graph.input (g : Graph T) (i : InputId) : Option Dyn :=
  (lookupL g.links i).bind fun o => (lookupV g.values o).bind id

/-- `Graph::input::<Nat>` with the checked downcast. -/
def Graph.inputNat (g : Graph T) (i : InputId) : Option Nat :=
  (g.input i).bind Dyn.asNat

/-- `Graph::link`: install or replace the edge, then invalidate the node
owning the receiving input. -/
def Graph.link (g : Graph T) (i : InputId) (o : OutputId) : Graph T :=
  Graph.invalidate { g with links := insertL g.links i o } i.node

/-- `Graph::move_to`: persist a position, no recomputation. -/
def Graph.moveTo (g : Graph T) (n : Node) (p : Int × Int) : Graph T :=
  match lookupN g.nodes n with
  | none => g
  | some st => { g with nodes := updateN g.nodes n { st with position := p } }

/-- `Graph::build` + `Builder::input/output/finish` collapsed into one step:
allocate the next id, declare the named ports, insert the record and
invalidate the new node. -/
def Graph.pushNode (g : Graph T) (inNames outNames : List String)
    (p : Int × Int) (st : T) : Graph T :=
  let node := g.current
  let s : State T :=
    { id := node, state := st, position := p,
      inputs := inNames.map fun nm => { node := node, name := nm },
      outputs := outNames.map fun nm => { node := node, name := nm } }
  Graph.invalidate
    { g with current := g.current + 1, nodes := insertN g.nodes node s } node

/-- One step of the inner loop of `Graph::dependencies`: for each input of
the popped node, follow its link backward and record the owner of the output
unless it is already recorded or already queued. -/
def depsStep (links : Links) (dp : List Node × List Node) (i : InputId) :
    List Node × List Node :=
  match lookupL links i with
  | none => dp
  | some o =>
    if o.node ∈ dp.1 ∨ o.node ∈ dp.2 then dp
    else (dp.1 ++ [o.node], dp.2 ++ [o.node])

/-- The breadth-first loop of `Graph::dependencies`, fuel-indexed.  The first
component of the accumulator pair is the dependency set (in insertion order),
the queue is threaded explicitly. -/
def dependenciesAux (g : Graph T) :
    Nat → List Node → List Node → Option (List Node)
  | 0, pending, deps => if pending.isEmpty then some deps else none
  | fuel + 1, pending, deps =>
    match pending with
    | [] => some deps
    | x :: rest =>
      match lookupN g.nodes x with
      | none => dependenciesAux g fuel rest deps
      | some st =>
        let dp := st.inputs.foldl (depsStep g.links) (deps, rest)
        dependenciesAux g fuel dp.2 dp.1

/-- Fuel sufficient for `dependenciesAux` (proved below): every node pushed
after the start is the owner of some linked output. -/
def depsFuel (g : Graph T) : Nat :=
  g.links.length + 2

/-- `Graph::dependencies`, as the insertion-ordered list of the discovered
ancestor set. -/
def Graph.dependencies (g : Graph T) (n : Node) : List Node :=
  (dependenciesAux g (depsFuel g) [n] []).getD []

/-- The predicate of the `find` in `Graph::schedule`: is this input linked
(in the working copy) to one of the just-scheduled node's outputs? -/
def schedConn (links : Links) (curOuts : List OutputId) (i : InputId) : Bool :=
  match lookupL links i with
  | some o => decide (o ∈ curOuts)
  | none => false

/-- One candidate step of the inner loop of `Graph::schedule`: find the first
input of the candidate linked to one of the just-scheduled node's outputs,
remove that edge from the working copy, and enqueue the candidate if it
became a root. -/
def schedStep (g : Graph T) (curOuts : List OutputId)
    (lp : Links × List Node) (cand : Node) : Links × List Node :=
  match lookupN g.nodes cand with
  | none => lp
  | some cst =>
    match cst.inputs.find? (schedConn lp.1 curOuts) with
    | none => lp
    | some conn =>
      let l2 := removeL lp.1 conn
      if cst.isRoot l2 then (l2, cand :: lp.2) else (l2, lp.2)

/-- The main loop of `Graph::schedule` (Kahn's algorithm over the dependency
subgraph), fuel-indexed.  `pending` is the ready stack, `links` the working
copy of the link table, `sched` the schedule built so far. -/
def scheduleAux (g : Graph T) (deps : List Node) :
    Nat → Links → List Node → List Node → Option (List Node)
  | 0, _, pending, sched => if pending.isEmpty then some sched else none
  | fuel + 1, links, pending, sched =>
    match pending with
    | [] => some sched
    | cur :: rest =>
      match lookupN g.nodes cur with
      | none => scheduleAux g deps fuel links rest sched
      | some curSt =>
        let lp := deps.foldl (schedStep g curSt.outputs) (links, rest)
        scheduleAux g deps fuel lp.1 lp.2 (sched ++ [cur])

/-- Fuel sufficient for `scheduleAux` (proved below): every pop is paid for
by an initial root or by the removal of one working edge. -/
def schedFuel (g : Graph T) (deps : List Node) : Nat :=
  deps.length + g.links.length + 1

/-- The initial ready set of `Graph::schedule`: dependencies that are
registered and are roots under the full link table. -/
def schedPending0 (g : Graph T) (n : Node) : List Node :=
  (g.dependencies n).filter fun d =>
    match lookupN g.nodes d with
    | some st => st.isRoot g.links
    | none => false

/-- The Kahn part of `Graph::schedule`: drain the ready stack over a working
copy of the link table. -/
def schedKahn (g : Graph T) (n : Node) : List Node :=
  (scheduleAux g (g.dependencies n) (schedFuel g (g.dependencies n))
    g.links (schedPending0 g n) []).getD []

/-- `Graph::schedule`: roots of the dependency set seed the ready stack, the
Kahn loop drains it, the queried node is appended last unconditionally. -/
def Graph.schedule (g : Graph T) (n : Node) : List Node :=
  schedKahn g n ++ [n]

/-- The public mutation surface of the engine, for statements quantifying
over arbitrary operation sequences. -/
inductive Op (T : Type) where
  | link (i : InputId) (o : OutputId)
  | update (n : Node) (f : T → Data → T × Values × Unit)
  | pushNode (inNames outNames : List String) (p : Int × Int) (st : T)
  | moveTo (n : Node) (p : Int × Int)

def applyOp (g : Graph T) : Op T → Graph T
  | .link i o => g.link i o
  | .update n f => (g.update n f).1
  | .pushNode a b p st => g.pushNode a b p st
  | .moveTo n p => g.moveTo n p

def applyOps (g : Graph T) (ops : List (Op T)) : Graph T :=
  ops.foldl applyOp g

/-- Well-formedness of a graph state, as established by the `Builder` flow:
registry keys are unique and each record carries its own key, and every
declared port is owned by its node; the link table binds each input at most
once. -/
def WellFormed (g : Graph T) : Prop :=
  (g.nodes.map Prod.fst).Nodup ∧
  (g.links.map Prod.fst).Nodup ∧
  ∀ p ∈ g.nodes, p.2.id = p.1 ∧ p.2.inputs.Nodup ∧
    (∀ i ∈ p.2.inputs, i.node = p.1) ∧ (∀ o ∈ p.2.outputs, o.node = p.1)

instance (g : Graph T) : Decidable (WellFormed g) := by
  unfold WellFormed
  exact inferInstance

/-- A node one of whose inputs is linked to one of its own outputs. -/
def SelfLinked (g : Graph T) (x : Node) : Prop :=
  ∃ l ∈ g.links, l.1.node = x ∧ l.2.node = x

instance (g : Graph T) (x : Node) : Decidable (SelfLinked g x) := by
  unfold SelfLinked
  exact List.decidableBEx _ g.links

/-- One backward step of the dependency relation: `y` owns an output linked
to one of `x`'s declared inputs. -/
def bstep (g : Graph T) (x y : Node) : Prop :=
  ∃ st, lookupN g.nodes x = some st ∧
    ∃ i ∈ st.inputs, ∃ o, lookupL g.links i = some o ∧ o.node = y

/-- One forward step of the dependant relation: some input owned by `y` is
linked to an output owned by `x` (so invalidating `x` reaches `y`). -/
def fstep (links : Links) (x y : Node) : Prop :=
  ∃ l ∈ links, l.2.node = x ∧ l.1.node = y

/-! ### Concrete instances used by counterexamples and witnesses -/

/-- A single node `0` whose input is linked to its own output; the callback
counts its invocations in the node state. -/
def exSelfLoop : Graph Nat :=
  { nodes := [(0, { id := 0, state := 0, position := (0, 0),
                    inputs := [{ node := 0, name := "in" }],
                    outputs := [{ node := 0, name := "out" }] })],
    links := [({ node := 0, name := "in" }, { node := 0, name := "out" })],
    values := [],
    current := 1,
    evaluate := fun t _d => (t + 1, []) }

/-- Nodes `1` and `2` in a two-cycle, with node `0` consuming `1`'s output. -/
def exCycle : Graph Nat :=
  { nodes := [
      (0, { id := 0, state := 0, position := (0, 0),
            inputs := [{ node := 0, name := "in" }], outputs := [] }),
      (1, { id := 1, state := 0, position := (0, 0),
            inputs := [{ node := 1, name := "in" }],
            outputs := [{ node := 1, name := "out" }] }),
      (2, { id := 2, state := 0, position := (0, 0),
            inputs := [{ node := 2, name := "in" }],
            outputs := [{ node := 2, name := "out" }] })],
    links := [({ node := 1, name := "in" }, { node := 2, name := "out" }),
              ({ node := 2, name := "in" }, { node := 1, name := "out" }),
              ({ node := 0, name := "in" }, { node := 1, name := "out" })],
    values := [], current := 3,
    evaluate := fun t _d => (t, []) }

/-- The diamond whose link-table order makes the breadth-first discovery
order non-topological: `0` feeds `1` and `2`, and `2` also feeds `1`, but
`1` is discovered (and evaluated) before `2`. -/
def exDiamond : Graph Nat :=
  { nodes := [
      (0, { id := 0, state := 0, position := (0, 0), inputs := [],
            outputs := [{ node := 0, name := "out" }] }),
      (1, { id := 1, state := 1, position := (0, 0),
            inputs := [{ node := 1, name := "n" }, { node := 1, name := "a" }],
            outputs := [{ node := 1, name := "out" }] }),
      (2, { id := 2, state := 2, position := (0, 0),
            inputs := [{ node := 2, name := "in" }],
            outputs := [{ node := 2, name := "out" }] })],
    links := [({ node := 1, name := "n" }, { node := 0, name := "out" }),
              ({ node := 2, name := "in" }, { node := 0, name := "out" }),
              ({ node := 1, name := "a" }, { node := 2, name := "out" })],
    values := [], current := 3,
    evaluate := fun t d =>
      if t = 0 then
        (t, (d.set { node := 0, name := "out" } (.natV 1)).values)
      else if t = 1 then
        (t, (d.set { node := 1, name := "out" }
          (.natV ((d.getNat { node := 1, name := "a" }).getD 0))).values)
      else if t = 2 then
        (t, (d.set { node := 2, name := "out" }
          (.natV ((d.getNat { node := 2, name := "in" }).getD 0 + 1))).values)
      else (t, d.values) }

/-- A registered node `0` whose input is linked to an output of the
unregistered node `7`; the callback counts invocations in the state. -/
def exDangling : Graph Nat :=
  { nodes := [(0, { id := 0, state := 0, position := (0, 0),
                    inputs := [{ node := 0, name := "in" }], outputs := [] })],
    links := [({ node := 0, name := "in" }, { node := 7, name := "out" })],
    values := [], current := 1,
    evaluate := fun t _d => (t + 1, []) }

/-- The queue evolution of `Graph::invalidate`, producing the pop sequence. -/
def traceAux (links : Links) : Nat → List Node → List Node → Option (List Node)
  | 0, pending, _ => if pending.isEmpty then some [] else none
  | fuel + 1, pending, visited =>
    match pending with
    | [] => some []
    | n :: rest =>
      let pending1 := pushPending visited rest (dependantsOf links n)
      let visited1 := if n ∈ visited then visited else n :: visited
      (traceAux links fuel pending1 visited1).map fun tr => n :: tr

/-- Decreasing measure for the invalidation queue: queued-but-already-visited
nodes are popped once more; unvisited candidate nodes cost two pops. -/
def invMeasure (P : Finset Node) (pending visited : List Node) : Nat :=
  pending.countP (fun y => decide (y ∈ visited)) + 2 * (P \ visited.toFinset).card

/-- A one-node graph whose callback returns its state and cache untouched;
its state type is `Node` and each state is its own node id. -/
def gOwned : Graph Node :=
  { nodes := [(0, { id := 0, state := 0, position := (0, 0),
                    inputs := [{ node := 0, name := "in" }], outputs := [] })],
    links := [], values := [], current := 1,
    evaluate := fun t d => (t, d.values) }

/-- The input and output used by the `C10` witness. -/
def iC10 : InputId := { node := 0, name := "in" }

def oC10 : OutputId := { node := 5, name := "out" }

/-- Two registered nodes `0` (one input) and `5` (one declared output) with
the do-nothing callback; used as the `C3` witness instance. -/
def gC3 : Graph Node :=
  { nodes := [
      (0, { id := 0, state := 0, position := (0, 0),
            inputs := [{ node := 0, name := "in" }], outputs := [] }),
      (5, { id := 5, state := 5, position := (0, 0),
            inputs := [], outputs := [{ node := 5, name := "out" }] })],
    links := [], values := [], current := 6,
    evaluate := fun t d => (t, d.values) }

/-- The update closure of the `C3` witness: returns `0`, changes nothing. -/
def fC3 : Node → Data → Node × Values × Nat :=
  fun t d => (t, d.values, 0)

/-- The evaluation callback leaves the node-identity of a state unchanged:
`owner` recovers, from a user state `T`, the node it belongs to (in the
source, "a node's `T` must encode its own variant/behavior"). -/
def CbOwner (ev : T → Data → T × Values) (owner : T → Node) : Prop :=
  ∀ t d, owner (ev t d).1 = owner t

/-- The evaluation callback writes only value-cache entries owned by the
node being evaluated (the spec's "commit a value for one of the node's own
declared outputs"). -/
def CbFrame (ev : T → Data → T × Values) (owner : T → Node) : Prop :=
  ∀ t d K, K.node ≠ owner t → lookupV (ev t d).2 K = lookupV d.values K

/-- Every registered state belongs to the node it is stored under. -/
def OwnerReg (g : Graph T) (owner : T → Node) : Prop :=
  ∀ m st, lookupN g.nodes m = some st → owner st.state = m

/-- The value-cache effect of one `Graph::evaluate` call, isolated from the
(unchanging, for a state-pure callback) registry and link table. -/
def stepVals (ev : T → Data → T × Values) (links : Links)
    (nodes : List (Node × State T)) (v : Values) (x : Node) : Values :=
  match lookupN nodes x with
  | none => v
  | some st =>
    (ev st.state { links := links, values := st.outputs.foldl removeV v }).2

/-- The evaluation callback writes only declared outputs of the evaluated
node, where `decl` gives each node's declared output list. -/
def CbDecl (ev : T → Data → T × Values) (owner : T → Node)
    (decl : Node → List OutputId) : Prop :=
  ∀ (t : T) (d : Data) (K : OutputId), K.node = owner t →
    K ∉ decl (owner t) → lookupV (ev t d).2 K = lookupV d.values K

/-- The evaluation callback reads only the cache entries resolved through
the evaluated node's own linked inputs (and its own entries, which arrive
cleared): caches agreeing there produce identical commits. -/
def CbReads (ev : T → Data → T × Values) (owner : T → Node) : Prop :=
  ∀ (t : T) (links : Links) (v v' : Values),
    (∀ i : InputId, i.node = owner t → ∀ o, lookupL links i = some o →
      lookupV v o = lookupV v' o) →
    (∀ K : OutputId, K.node = owner t → lookupV v K = lookupV v' K) →
    ∀ K : OutputId, K.node = owner t →
      lookupV (ev t { links := links, values := v }).2 K =
        lookupV (ev t { links := links, values := v' }).2 K

instance (links : Links) (x y : Node) : Decidable (fstep links x y) :=
  List.decidableBEx _ links

/-- The pop order of an invalidation pass is topologically sorted: a node
is popped strictly after every popped supplier of one of its inputs. -/
def TraceTopo (links : Links) (tr : List Node) : Prop :=
  ∀ (j k : Fin tr.length), fstep links (tr.get j) (tr.get k) → j < k

instance (links : Links) (tr : List Node) : Decidable (TraceTopo links tr) := by
  unfold TraceTopo
  exact inferInstance

/-! ### Association-list lemmas -/

theorem lookupA_append [DecidableEq α] (as bs : List (α × β)) (k : α) :
    lookupA (as ++ bs) k =
      match lookupA as k with
      | some v => some v
      | none => lookupA bs k := by
  induction as with
  | nil => rfl
  | cons p ps ih =>
    by_cases h : p.1 = k <;> simp [lookupA, h, ih]

theorem lookupA_removeA_self [DecidableEq α] (m : List (α × β)) (k : α) :
    lookupA (removeA m k) k = none := by
  induction m with
  | nil => rfl
  | cons p ps ih =>
    by_cases h : p.1 = k <;> simp [removeA, lookupA, h, ih]

theorem lookupA_removeA_ne [DecidableEq α] :
    ∀ (m : List (α × β)) {j k : α}, j ≠ k →
      lookupA (removeA m k) j = lookupA m j
  | [], _, _, _ => rfl
  | p :: ps, j, k, h => by
    by_cases hp : p.1 = k
    · have hpj : p.1 ≠ j := fun hc => h (hc ▸ hp ▸ rfl)
      rw [show removeA (p :: ps) k = removeA ps k by simp [removeA, hp]]
      rw [lookupA_removeA_ne ps h]
      simp [lookupA, hpj]
    · rw [show removeA (p :: ps) k = p :: removeA ps k by simp [removeA, hp]]
      by_cases hj : p.1 = j
      · simp [lookupA, hj]
      · simp only [lookupA, if_neg hj]
        exact lookupA_removeA_ne ps h

theorem lookupA_insertA_self [DecidableEq α] (m : List (α × β)) (k : α) (v : β) :
    lookupA (insertA m k v) k = some v := by
  simp [insertA, lookupA_append, lookupA_removeA_self, lookupA]

theorem lookupA_insertA_ne [DecidableEq α] (m : List (α × β)) {j k : α} (v : β)
    (h : j ≠ k) : lookupA (insertA m k v) j = lookupA m j := by
  have hk : k ≠ j := fun hkj => h hkj.symm
  simp [insertA, lookupA_append, lookupA_removeA_ne m h, lookupA, hk]
  cases lookupA m j <;> simp

theorem mem_removeA [DecidableEq α] :
    ∀ {m : List (α × β)} {k : α} {p : α × β},
      p ∈ removeA m k → p ∈ m ∧ p.1 ≠ k
  | [], _, _, h => by simp [removeA] at h
  | q :: qs, k, p, h => by
    by_cases hq : q.1 = k
    · simp only [removeA, if_pos hq] at h
      exact ⟨List.mem_cons_of_mem _ (mem_removeA h).1, (mem_removeA h).2⟩
    · simp only [removeA, if_neg hq] at h
      rcases List.mem_cons.1 h with h | h
      · exact ⟨h ▸ List.mem_cons_self _ _, h ▸ hq⟩
      · exact ⟨List.mem_cons_of_mem _ (mem_removeA h).1, (mem_removeA h).2⟩

theorem keys_nodup_removeA [DecidableEq α] :
    ∀ {m : List (α × β)} (k : α), (m.map Prod.fst).Nodup →
      ((removeA m k).map Prod.fst).Nodup
  | [], _, _ => by simp [removeA]
  | p :: ps, k, h => by
    simp only [List.map_cons, List.nodup_cons] at h
    by_cases hp : p.1 = k
    · simpa [removeA, hp] using keys_nodup_removeA k h.2
    · simp only [removeA, if_neg hp, List.map_cons, List.nodup_cons]
      refine ⟨fun hc => h.1 ?_, keys_nodup_removeA k h.2⟩
      rcases List.mem_map.1 hc with ⟨q, hq, hk⟩
      exact List.mem_map.2 ⟨q, (mem_removeA hq).1, hk⟩

theorem keys_nodup_insertA [DecidableEq α] {m : List (α × β)} (k : α) (v : β)
    (h : (m.map Prod.fst).Nodup) : ((insertA m k v).map Prod.fst).Nodup := by
  have hr := keys_nodup_removeA k h
  simp only [insertA, List.map_append, List.map_cons, List.map_nil]
  refine List.Nodup.append hr (List.nodup_singleton k) ?_
  intro a ha hb
  simp only [List.mem_singleton] at hb
  rcases List.mem_map.1 ha with ⟨q, hq, hk⟩
  exact (mem_removeA hq).2 (hk.trans hb)

theorem filter_insertA_eq [DecidableEq α] (m : List (α × β)) (k : α) (v : β) :
    (insertA m k v).filter (fun p => p.1 = k) = [(k, v)] := by
  have hrem : ∀ ms : List (α × β), (removeA ms k).filter (fun p => p.1 = k) = [] := by
    intro ms
    induction ms with
    | nil => rfl
    | cons q qs ih =>
      by_cases hq : q.1 = k <;> simp [removeA, hq, List.filter, ih]
  simp [insertA, List.filter_append, hrem]

/-! ### Registry and evaluation basics -/

theorem lookupN_updateN_ne :
    ∀ (nodes : List (Node × State T)) {m n : Node} (st : State T), m ≠ n →
      lookupN (updateN nodes n st) m = lookupN nodes m
  | [], _, _, _, _ => rfl
  | p :: ps, m, n, st, h => by
    have hnm : n ≠ m := Ne.symm h
    by_cases hp : p.1 = n
    · have hpm : p.1 ≠ m := fun hc => hnm (hp.symm.trans hc)
      simp only [updateN, List.map_cons, if_pos hp, lookupN, lookupA,
        if_neg hnm, if_neg hpm]
      exact lookupN_updateN_ne ps st h
    · by_cases hm : p.1 = m
      · simp only [updateN, List.map_cons, if_neg hp, lookupN, lookupA, if_pos hm]
      · simp only [updateN, List.map_cons, if_neg hp, lookupN, lookupA, if_neg hm]
        exact lookupN_updateN_ne ps st h

theorem lookupN_updateN_self :
    ∀ (nodes : List (Node × State T)) {n : Node} (st st0 : State T),
      lookupN nodes n = some st0 → lookupN (updateN nodes n st) n = some st
  | [], _, _, _, h => by simp [lookupN, lookupA] at h
  | p :: ps, n, st, st0, h => by
    by_cases hp : p.1 = n
    · simp [updateN, lookupN, lookupA, hp]
    · simp only [lookupN, lookupA, if_neg hp] at h
      simp only [updateN, List.map_cons, if_neg hp, lookupN, lookupA, if_neg hp]
      exact lookupN_updateN_self ps st st0 h

theorem lookupN_updateN_none :
    ∀ (nodes : List (Node × State T)) {n : Node} (st : State T),
      lookupN nodes n = none → lookupN (updateN nodes n st) n = none
  | [], _, _, _ => rfl
  | p :: ps, n, st, h => by
    by_cases hp : p.1 = n
    · simp [lookupN, lookupA, hp] at h
    · simp only [lookupN, lookupA, if_neg hp] at h
      simp only [updateN, List.map_cons, if_neg hp, lookupN, lookupA, if_neg hp]
      exact lookupN_updateN_none ps st h

theorem lookupN_updateN_isSome (nodes : List (Node × State T)) (m n : Node)
    (st : State T) :
    (lookupN (updateN nodes n st) m).isSome = (lookupN nodes m).isSome := by
  by_cases h : m = n
  · subst h
    cases hl : lookupN nodes m with
    | none => simp [lookupN_updateN_none nodes st hl]
    | some st0 => simp [lookupN_updateN_self nodes st st0 hl]
  · rw [lookupN_updateN_ne nodes st h]

theorem evaluateNode_links (g : Graph T) (n : Node) :
    (evaluateNode g n).links = g.links := by
  unfold evaluateNode
  cases lookupN g.nodes n <;> rfl

theorem evaluateNode_evaluate (g : Graph T) (n : Node) :
    (evaluateNode g n).evaluate = g.evaluate := by
  unfold evaluateNode
  cases lookupN g.nodes n <;> rfl

theorem evaluateNode_current (g : Graph T) (n : Node) :
    (evaluateNode g n).current = g.current := by
  unfold evaluateNode
  cases lookupN g.nodes n <;> rfl

theorem evaluateNode_lookupN_isSome (g : Graph T) (n m : Node) :
    (lookupN (evaluateNode g n).nodes m).isSome = (lookupN g.nodes m).isSome := by
  unfold evaluateNode
  cases h : lookupN g.nodes n with
  | none => rfl
  | some st => simp [lookupN_updateN_isSome]

theorem evaluateNode_lookupN_ne (g : Graph T) {n m : Node} (h : m ≠ n) :
    lookupN (evaluateNode g n).nodes m = lookupN g.nodes m := by
  unfold evaluateNode
  cases hl : lookupN g.nodes n with
  | none => rfl
  | some st => simp [lookupN_updateN_ne _ _ h]

/-! ### The queue of `invalidate` in isolation

`evaluateNode` never changes the link table or the set of registry keys, so
the queue/visited evolution of `Graph::invalidate` — and hence the sequence
of popped nodes — is a function of the link table alone. -/

theorem invalidateAux_eq_traceAux (g : Graph T) :
    ∀ (fuel : Nat) (pending visited : List Node),
      invalidateAux g fuel pending visited =
        (traceAux g.links fuel pending visited).map
          fun tr => (tr.foldl evaluateNode g, tr)
  | 0, pending, visited => by
    by_cases h : pending.isEmpty <;> simp [invalidateAux, traceAux, h]
  | fuel + 1, [], visited => by simp [invalidateAux, traceAux]
  | fuel + 1, n :: rest, visited => by
    simp only [invalidateAux, traceAux]
    rw [invalidateAux_eq_traceAux (evaluateNode g n) fuel _ _, evaluateNode_links]
    cases traceAux g.links fuel
        (pushPending visited rest (dependantsOf g.links n))
        (if n ∈ visited then visited else n :: visited) <;>
      simp [List.foldl]

theorem invalidate_eq_fold (g : Graph T) (n : Node) :
    g.invalidate n =
      match traceAux g.links (invFuel g) [n] [] with
      | none => g
      | some tr => tr.foldl evaluateNode g := by
  unfold Graph.invalidate
  rw [invalidateAux_eq_traceAux]
  cases traceAux g.links (invFuel g) [n] [] <;> simp

theorem invTrace_eq (g : Graph T) (n : Node) :
    invTrace g n = (traceAux g.links (invFuel g) [n] []).getD [] := by
  unfold invTrace
  rw [invalidateAux_eq_traceAux]
  cases traceAux g.links (invFuel g) [n] [] <;> simp

theorem foldl_evaluateNode_links :
    ∀ (tr : List Node) (g : Graph T), (tr.foldl evaluateNode g).links = g.links
  | [], _ => rfl
  | x :: xs, g => by
    simp only [List.foldl]
    rw [foldl_evaluateNode_links xs, evaluateNode_links]

theorem foldl_evaluateNode_evaluate :
    ∀ (tr : List Node) (g : Graph T),
      (tr.foldl evaluateNode g).evaluate = g.evaluate
  | [], _ => rfl
  | x :: xs, g => by
    simp only [List.foldl]
    rw [foldl_evaluateNode_evaluate xs, evaluateNode_evaluate]

theorem foldl_evaluateNode_lookupN_isSome :
    ∀ (tr : List Node) (g : Graph T) (m : Node),
      (lookupN (tr.foldl evaluateNode g).nodes m).isSome =
        (lookupN g.nodes m).isSome
  | [], _, _ => rfl
  | x :: xs, g, m => by
    simp only [List.foldl]
    rw [foldl_evaluateNode_lookupN_isSome xs, evaluateNode_lookupN_isSome]

theorem invalidate_links (g : Graph T) (n : Node) :
    (g.invalidate n).links = g.links := by
  rw [invalidate_eq_fold]
  cases traceAux g.links (invFuel g) [n] [] with
  | none => rfl
  | some tr => exact foldl_evaluateNode_links tr g

theorem invalidate_evaluate (g : Graph T) (n : Node) :
    (g.invalidate n).evaluate = g.evaluate := by
  rw [invalidate_eq_fold]
  cases traceAux g.links (invFuel g) [n] [] with
  | none => rfl
  | some tr => exact foldl_evaluateNode_evaluate tr g

/-! ### `pushPending` lemmas -/

theorem pushPending_mono :
    ∀ (ds : List Node) (v p : List Node) {x : Node}, x ∈ p →
      x ∈ pushPending v p ds
  | [], _, _, _, h => h
  | d :: ds, v, p, x, h => by
    simp only [pushPending, List.foldl]
    by_cases hd : d ∈ v ∨ d ∈ p
    · simpa [pushPending, hd] using pushPending_mono ds v p h
    · simp only [if_neg hd]
      exact pushPending_mono ds v _ (List.mem_append_left _ h)

theorem pushPending_covers :
    ∀ (ds : List Node) (v p : List Node) {d : Node}, d ∈ ds →
      d ∈ v ∨ d ∈ pushPending v p ds
  | [], _, _, _, h => by simp at h
  | e :: ds, v, p, d, h => by
    simp only [pushPending, List.foldl]
    rcases List.mem_cons.1 h with rfl | h
    · by_cases hd : d ∈ v ∨ d ∈ p
      · rcases hd with hd | hd
        · exact Or.inl hd
        · exact Or.inr (by simpa [pushPending, hd] using pushPending_mono ds v p hd)
      · simp only [if_neg hd]
        refine Or.inr (pushPending_mono ds v _ ?_)
        exact List.mem_append_right _ (List.mem_singleton.2 rfl)
    · by_cases he : e ∈ v ∨ e ∈ p
      · simpa [pushPending, he] using pushPending_covers ds v p h
      · simpa [pushPending, he] using pushPending_covers ds v _ h

theorem pushPending_mem :
    ∀ (ds : List Node) (v p : List Node) {x : Node}, x ∈ pushPending v p ds →
      x ∈ p ∨ (x ∈ ds ∧ x ∉ v ∧ x ∉ p)
  | [], _, _, _, h => Or.inl h
  | d :: ds, v, p, x, h => by
    simp only [pushPending, List.foldl] at h
    by_cases hd : d ∈ v ∨ d ∈ p
    · rw [if_pos hd] at h
      rcases pushPending_mem ds v p h with h | ⟨h1, h2, h3⟩
      · exact Or.inl h
      · exact Or.inr ⟨List.mem_cons_of_mem _ h1, h2, h3⟩
    · rw [if_neg hd] at h
      push_neg at hd
      rcases pushPending_mem ds v _ h with h | ⟨h1, h2, h3⟩
      · rcases List.mem_append.1 h with h | h
        · exact Or.inl h
        · rcases List.mem_singleton.1 h with rfl
          exact Or.inr ⟨List.mem_cons_self _ _, hd.1, hd.2⟩
      · refine Or.inr ⟨List.mem_cons_of_mem _ h1, h2, fun hc => h3 ?_⟩
        exact List.mem_append_left _ hc

theorem pushPending_nodup :
    ∀ (ds : List Node) (v p : List Node), p.Nodup → (pushPending v p ds).Nodup
  | [], _, _, h => h
  | d :: ds, v, p, h => by
    simp only [pushPending, List.foldl]
    by_cases hd : d ∈ v ∨ d ∈ p
    · simpa [pushPending, hd] using pushPending_nodup ds v p h
    · simp only [if_neg hd]
      refine pushPending_nodup ds v _ ?_
      push_neg at hd
      simpa [List.nodup_append] using ⟨h, hd.2⟩

theorem pushPending_none :
    ∀ (ds : List Node) (v p : List Node), (∀ d ∈ ds, d ∈ v ∨ d ∈ p) →
      pushPending v p ds = p
  | [], _, _, _ => rfl
  | d :: ds, v, p, h => by
    have hd : d ∈ v ∨ d ∈ p := h d (List.mem_cons_self _ _)
    simp only [pushPending, List.foldl, if_pos hd]
    exact pushPending_none ds v p fun e he => h e (List.mem_cons_of_mem _ he)

theorem pushPending_append :
    ∀ (ds : List Node) (v p : List Node),
      ∃ S, pushPending v p ds = p ++ S ∧ ∀ s ∈ S, s ∉ v
  | [], _, p => ⟨[], by simp [pushPending], by simp⟩
  | d :: ds, v, p => by
    by_cases hd : d ∈ v ∨ d ∈ p
    · obtain ⟨S, hS, hSv⟩ := pushPending_append ds v p
      exact ⟨S, by simpa [pushPending, List.foldl, hd] using hS, hSv⟩
    · obtain ⟨S, hS, hSv⟩ := pushPending_append ds v (p ++ [d])
      push_neg at hd
      refine ⟨d :: S, ?_, ?_⟩
      · have : pushPending v p (d :: ds) = pushPending v (p ++ [d]) ds := by
          simp [pushPending, List.foldl, hd.1, hd.2]
        rw [this, hS, List.append_assoc]
        rfl
      · intro s hs
        rcases List.mem_cons.1 hs with rfl | hs
        · exact hd.1
        · exact hSv s hs

/-! ### Termination of the invalidation queue -/

theorem countP_le_one_unique :
    ∀ {S : List Node} (p : Node → Bool) (x : Node), S.Nodup →
      (∀ s ∈ S, p s = true → s = x) → S.countP p ≤ 1
  | [], _, _, _, _ => by simp
  | s :: S, p, x, hn, h => by
    rw [List.countP_cons]
    by_cases hs : p s = true
    · have hsx : s = x := h s (List.mem_cons_self _ _) hs
      have : S.countP p = 0 := by
        rw [List.countP_eq_zero]
        intro t ht hpt
        have : t = s := (h t (List.mem_cons_of_mem _ ht) hpt).trans hsx.symm
        exact (List.nodup_cons.1 hn).1 (this ▸ ht)
      simp [this, hs]
    · have : (if p s then 1 else 0) = 0 := by simp [hs]
      rw [this, Nat.add_zero]
      exact countP_le_one_unique p x (List.nodup_cons.1 hn).2
        fun t ht hpt => h t (List.mem_cons_of_mem _ ht) hpt

theorem isSome_map (o : Option α) (f : α → β) : (o.map f).isSome = o.isSome := by
  cases o <;> rfl

theorem traceAux_isSome_of (links : Links) (P : Finset Node)
    (hsrc : ∀ l ∈ links, l.1.node ∈ P) :
    ∀ (fuel : Nat) (pending visited : List Node),
      pending.Nodup →
      (∀ x ∈ pending, x ∈ P) →
      (∀ x ∈ visited, ∀ y ∈ dependantsOf links x, y ∈ pending ∨ y ∈ visited) →
      invMeasure P pending visited ≤ fuel →
      (traceAux links fuel pending visited).isSome
  | 0, pending, visited, hnd, hP, hJ, hmu => by
    match pending with
    | [] => simp [traceAux]
    | x :: rest =>
      exfalso
      by_cases hx : x ∈ visited
      · have : 1 ≤ (x :: rest).countP (fun y => decide (y ∈ visited)) := by
          rw [List.countP_cons]
          simp [hx]
        simp only [invMeasure, Nat.le_zero] at hmu
        omega
      · have hxP : x ∈ P := hP x (List.mem_cons_self _ _)
        have : x ∈ P \ visited.toFinset := by
          simp [Finset.mem_sdiff, hxP, List.mem_toFinset, hx]
        have : 1 ≤ (P \ visited.toFinset).card := Finset.card_pos.2 ⟨x, this⟩
        simp only [invMeasure, Nat.le_zero] at hmu
        omega
  | fuel + 1, pending, visited, hnd, hP, hJ, hmu => by
    match pending with
    | [] => simp [traceAux]
    | x :: rest =>
      have hxrest : x ∉ rest := (List.nodup_cons.1 hnd).1
      have hndr : rest.Nodup := (List.nodup_cons.1 hnd).2
      simp only [traceAux, isSome_map]
      by_cases hx : x ∈ visited
      · have hpend1 : pushPending visited rest (dependantsOf links x) = rest := by
          refine pushPending_none _ _ _ fun d hd => ?_
          rcases hJ x hx d hd with h | h
          · rcases List.mem_cons.1 h with rfl | h
            · exact Or.inl hx
            · exact Or.inr h
          · exact Or.inl h
        rw [hpend1, if_pos hx]
        refine traceAux_isSome_of links P hsrc fuel rest visited hndr
          (fun y hy => hP y (List.mem_cons_of_mem _ hy))
          (fun z hz y hy => ?_) ?_
        · rcases hJ z hz y hy with h | h
          · rcases List.mem_cons.1 h with rfl | h
            · exact Or.inr hx
            · exact Or.inl h
          · exact Or.inr h
        · have hc : (x :: rest).countP (fun y => decide (y ∈ visited)) =
              rest.countP (fun y => decide (y ∈ visited)) + 1 := by
            simp [List.countP_cons, hx]
          simp only [invMeasure] at hmu ⊢
          omega
      · obtain ⟨S, hS, hSv⟩ :=
          pushPending_append (dependantsOf links x) visited rest
        rw [if_neg hx]
        have hnd1 : (pushPending visited rest (dependantsOf links x)).Nodup :=
          pushPending_nodup _ _ _ hndr
        refine traceAux_isSome_of links P hsrc fuel _ (x :: visited) hnd1
          (fun y hy => ?_) (fun z hz y hy => ?_) ?_
        · rcases pushPending_mem _ _ _ hy with h | ⟨h1, _, _⟩
          · exact hP y (List.mem_cons_of_mem _ h)
          · rcases List.mem_map.1 h1 with ⟨l, hl, rfl⟩
            exact hsrc l (List.mem_filter.1 hl).1
        · rcases List.mem_cons.1 hz with rfl | hz
          · rcases pushPending_covers (dependantsOf links z) visited rest hy
              with h | h
            · exact Or.inr (List.mem_cons_of_mem _ h)
            · exact Or.inl h
          · rcases hJ z hz y hy with h | h
            · rcases List.mem_cons.1 h with rfl | h
              · exact Or.inr (List.mem_cons_self _ _)
              · exact Or.inl (pushPending_mono _ _ _ h)
            · exact Or.inr (List.mem_cons_of_mem _ h)
        · -- the measure strictly decreases
          have hcard : (P \ (x :: visited).toFinset).card <
              (P \ visited.toFinset).card := by
            refine Finset.card_lt_card ?_
            constructor
            · intro a ha
              rw [Finset.mem_sdiff] at ha ⊢
              refine ⟨ha.1, fun hc => ha.2 ?_⟩
              rw [List.mem_toFinset] at hc
              rw [List.toFinset_cons, Finset.mem_insert]
              exact Or.inr (List.mem_toFinset.2 hc)
            · intro hsub
              have hxm : x ∈ P \ visited.toFinset := by
                rw [Finset.mem_sdiff, List.mem_toFinset]
                exact ⟨hP x (List.mem_cons_self _ _), hx⟩
              have := hsub hxm
              rw [Finset.mem_sdiff, List.toFinset_cons] at this
              exact this.2 (Finset.mem_insert_self _ _)
          have hcount : (pushPending visited rest (dependantsOf links x)).countP
              (fun y => decide (y ∈ x :: visited)) ≤
                rest.countP (fun y => decide (y ∈ visited)) + 1 := by
            rw [hS, List.countP_append]
            have h1 : rest.countP (fun y => decide (y ∈ x :: visited)) =
                rest.countP (fun y => decide (y ∈ visited)) := by
              refine List.countP_congr fun a ha => ?_
              have hax : a ≠ x := fun hc => hxrest (hc ▸ ha)
              simp [List.mem_cons, hax]
            have h2 : S.countP (fun y => decide (y ∈ x :: visited)) ≤ 1 := by
              have hSnd : S.Nodup := by
                have := pushPending_nodup (dependantsOf links x) visited rest hndr
                rw [hS] at this
                exact this.of_append_right
              refine countP_le_one_unique _ x hSnd fun s hs hps => ?_
              rcases List.mem_cons.1 (by simpa using hps) with h | h
              · exact h
              · exact absurd h (hSv s hs)
            omega
          have hc0 : (x :: rest).countP (fun y => decide (y ∈ visited)) =
              rest.countP (fun y => decide (y ∈ visited)) := by
            simp [List.countP_cons, hx]
          simp only [invMeasure] at hmu ⊢
          omega

/-- The invalidation queue always empties within `invFuel` iterations. -/
theorem traceAux_total (g : Graph T) (n : Node) :
    (traceAux g.links (invFuel g) [n] []).isSome := by
  classical
  refine traceAux_isSome_of g.links
    (insert n ((g.links.map fun l => l.1.node).toFinset))
    (fun l hl => Finset.mem_insert_of_mem
      (List.mem_toFinset.2 (List.mem_map.2 ⟨l, hl, rfl⟩)))
    (invFuel g) [n] [] (List.nodup_singleton n)
    (fun x hx => by
      rcases List.mem_singleton.1 hx with rfl
      exact Finset.mem_insert_self _ _)
    (fun z hz => by simp at hz) ?_
  have h1 : ((insert n ((g.links.map fun l => l.1.node).toFinset)) \
      ([] : List Node).toFinset).card ≤ g.links.length + 1 := by
    rw [List.toFinset_nil, Finset.sdiff_empty]
    calc (insert n ((g.links.map fun l => l.1.node).toFinset)).card
        ≤ ((g.links.map fun l => l.1.node).toFinset).card + 1 :=
          Finset.card_insert_le _ _
      _ ≤ (g.links.map fun l => l.1.node).length + 1 :=
          Nat.add_le_add_right (List.toFinset_card_le _) _
      _ = g.links.length + 1 := by rw [List.length_map]
  have h2 : ([n] : List Node).countP (fun y => decide (y ∈ ([] : List Node))) = 0 := by
    simp
  simp only [invMeasure, invFuel]
  omega

/-! ### Bounds on how often one node is popped (and hence evaluated) -/

theorem mem_dependantsOf {links : Links} {n y : Node} :
    y ∈ dependantsOf links n ↔ ∃ l ∈ links, l.2.node = n ∧ l.1.node = y := by
  simp only [dependantsOf, List.mem_map, List.mem_filter, decide_eq_true_eq]
  constructor
  · rintro ⟨l, ⟨hl, h2⟩, rfl⟩
    exact ⟨l, hl, h2, rfl⟩
  · rintro ⟨l, hl, h2, rfl⟩
    exact ⟨l, ⟨hl, h2⟩, rfl⟩

theorem traceAux_count_le_two (links : Links) :
    ∀ (fuel : Nat) (pending visited : List Node) (tr : List Node) (x : Node),
      traceAux links fuel pending visited = some tr →
      pending.Nodup →
      tr.count x ≤
        if x ∈ visited then (if x ∈ pending then 1 else 0) else 2
  | 0, pending, visited, tr, x, htr, _ => by
    by_cases h : pending.isEmpty <;> simp [traceAux, h] at htr
    subst htr
    by_cases h1 : x ∈ visited <;> by_cases h2 : x ∈ pending <;> simp [h1, h2]
  | fuel + 1, [], visited, tr, x, htr, _ => by
    simp [traceAux] at htr
    subst htr
    by_cases h1 : x ∈ visited <;> simp [h1]
  | fuel + 1, y :: rest, visited, tr, x, htr, hnd => by
    simp only [traceAux, Option.map_eq_some'] at htr
    obtain ⟨tr1, htr1, rfl⟩ := htr
    have hyrest : y ∉ rest := (List.nodup_cons.1 hnd).1
    have hndr : rest.Nodup := (List.nodup_cons.1 hnd).2
    have hnd1 : (pushPending visited rest (dependantsOf links y)).Nodup :=
      pushPending_nodup _ _ _ hndr
    by_cases hyx : y = x
    · subst hyx
      by_cases hv : y ∈ visited
      · rw [if_pos hv] at htr1
        have hnp : y ∉ pushPending visited rest (dependantsOf links y) := by
          intro hc
          rcases pushPending_mem _ _ _ hc with h | ⟨_, h2, _⟩
          · exact hyrest h
          · exact h2 hv
        have ih := traceAux_count_le_two links fuel _ _ tr1 y htr1 hnd1
        rw [if_pos hv, if_neg hnp] at ih
        have hct : (y :: tr1).count y = tr1.count y + 1 := by
          simp [List.count_cons]
        rw [if_pos hv, if_pos (List.mem_cons_self y rest)]
        omega
      · rw [if_neg hv] at htr1
        have ih := traceAux_count_le_two links fuel _ _ tr1 y htr1 hnd1
        rw [if_pos (List.mem_cons_self y visited)] at ih
        have h1 : (if y ∈ pushPending visited rest (dependantsOf links y)
            then 1 else 0) ≤ 1 := by split <;> omega
        have hct : (y :: tr1).count y = tr1.count y + 1 := by
          simp [List.count_cons]
        rw [if_neg hv]
        omega
    · have hct : (y :: tr1).count x = tr1.count x := by
        simp [List.count_cons, hyx]
      have hxy : x ≠ y := fun hc => hyx hc.symm
      by_cases hv : y ∈ visited
      · rw [if_pos hv] at htr1
        have ih := traceAux_count_le_two links fuel _ _ tr1 x htr1 hnd1
        by_cases hxv : x ∈ visited
        · rw [if_pos hxv] at ih ⊢
          by_cases hr : x ∈ rest
          · rw [if_pos (pushPending_mono _ _ _ hr)] at ih
            rw [if_pos (List.mem_cons_of_mem _ hr)]
            omega
          · have hnp : x ∉ pushPending visited rest (dependantsOf links y) := by
              intro hc
              rcases pushPending_mem _ _ _ hc with h | ⟨_, h2, _⟩
              · exact hr h
              · exact h2 hxv
            rw [if_neg hnp] at ih
            split <;> omega
        · rw [if_neg hxv] at ih ⊢
          omega
      · rw [if_neg hv] at htr1
        have ih := traceAux_count_le_two links fuel _ _ tr1 x htr1 hnd1
        have hxyv : (x ∈ y :: visited) ↔ x ∈ visited := by
          simp only [List.mem_cons]
          exact ⟨fun h => h.resolve_left hxy, Or.inr⟩
        by_cases hxv : x ∈ visited
        · rw [if_pos (hxyv.2 hxv)] at ih
          rw [if_pos hxv]
          by_cases hr : x ∈ rest
          · rw [if_pos (pushPending_mono _ _ _ hr)] at ih
            rw [if_pos (List.mem_cons_of_mem _ hr)]
            omega
          · have hnp : x ∉ pushPending visited rest (dependantsOf links y) := by
              intro hc
              rcases pushPending_mem _ _ _ hc with h | ⟨_, h2, _⟩
              · exact hr h
              · exact h2 hxv
            rw [if_neg hnp] at ih
            split <;> omega
        · rw [if_neg (fun hc => hxv (hxyv.1 hc))] at ih
          rw [if_neg hxv]
          omega

theorem traceAux_count_le_one (links : Links) (x : Node)
    (hns : x ∉ dependantsOf links x) :
    ∀ (fuel : Nat) (pending visited : List Node) (tr : List Node),
      traceAux links fuel pending visited = some tr →
      pending.Nodup →
      (x ∈ visited → x ∉ pending) →
      tr.count x ≤ if x ∈ visited then 0 else 1
  | 0, pending, visited, tr, htr, _, _ => by
    by_cases h : pending.isEmpty <;> simp [traceAux, h] at htr
    subst htr
    by_cases h1 : x ∈ visited <;> simp [h1]
  | fuel + 1, [], visited, tr, htr, _, _ => by
    simp [traceAux] at htr
    subst htr
    by_cases h1 : x ∈ visited <;> simp [h1]
  | fuel + 1, y :: rest, visited, tr, htr, hnd, hvp => by
    simp only [traceAux, Option.map_eq_some'] at htr
    obtain ⟨tr1, htr1, rfl⟩ := htr
    have hyrest : y ∉ rest := (List.nodup_cons.1 hnd).1
    have hndr : rest.Nodup := (List.nodup_cons.1 hnd).2
    have hnd1 : (pushPending visited rest (dependantsOf links y)).Nodup :=
      pushPending_nodup _ _ _ hndr
    by_cases hyx : y = x
    · subst hyx
      have hv : y ∉ visited := fun hc => hvp hc (List.mem_cons_self _ _)
      rw [if_neg hv] at htr1
      have hnp : y ∉ pushPending visited rest (dependantsOf links y) := by
        intro hc
        rcases pushPending_mem _ _ _ hc with h | ⟨h1, _, _⟩
        · exact hyrest h
        · exact hns h1
      have ih := traceAux_count_le_one links y hns fuel _ _ tr1 htr1 hnd1
        fun _ => hnp
      rw [if_pos (List.mem_cons_self y visited)] at ih
      have hct : (y :: tr1).count y = tr1.count y + 1 := by
        simp [List.count_cons]
      rw [if_neg hv]
      omega
    · have hct : (y :: tr1).count x = tr1.count x := by
        simp [List.count_cons, hyx]
      have hxy : x ≠ y := fun hc => hyx hc.symm
      by_cases hv : y ∈ visited
      · rw [if_pos hv] at htr1
        have ih := traceAux_count_le_one links x hns fuel _ _ tr1 htr1 hnd1
          (fun hx hc => by
            rcases pushPending_mem _ _ _ hc with h | ⟨_, h2, _⟩
            · exact hvp hx (List.mem_cons_of_mem _ h)
            · exact h2 hx)
        by_cases hxv : x ∈ visited
        · rw [if_pos hxv] at ih ⊢
          omega
        · rw [if_neg hxv] at ih ⊢
          omega
      · rw [if_neg hv] at htr1
        have hxyv : (x ∈ y :: visited) ↔ x ∈ visited := by
          simp only [List.mem_cons]
          exact ⟨fun h => h.resolve_left hxy, Or.inr⟩
        have ih := traceAux_count_le_one links x hns fuel _ _ tr1 htr1 hnd1
          (fun hx hc => by
            rcases pushPending_mem _ _ _ hc with h | ⟨_, h2, _⟩
            · exact hvp (hxyv.1 hx) (List.mem_cons_of_mem _ h)
            · exact h2 (hxyv.1 hx))
        by_cases hxv : x ∈ visited
        · rw [if_pos (hxyv.2 hxv)] at ih
          rw [if_pos hxv]
          omega
        · rw [if_neg (fun hc => hxv (hxyv.1 hc))] at ih
          rw [if_neg hxv]
          omega

/-! ### Claim C2 -/

/-- C2 (counterexample): in `exSelfLoop`, whose only node `0` has its input
linked to its own output, the single call `invalidate(0)` pops node `0`
twice and invokes the evaluation callback twice — the counting callback
raises the state from `0` to `2` — contradicting the claim that no node is
evaluated twice within one invalidation pass. -/
theorem claim_C2_counterexample :
    invTrace exSelfLoop 0 = [0, 0] ∧
    Graph.get exSelfLoop 0 = some 0 ∧
    Graph.get (Graph.invalidate exSelfLoop 0) 0 = some 2 := by
  refine ⟨by decide, by decide, by decide⟩

/-- C2 (amended): during a single `invalidate(origin)` call, every node is
popped — and hence has the callback invoked — at most twice, and a node
none of whose inputs is linked to one of its own outputs is popped at most
once.  (Only a self-linked node can be popped twice, because `visited` is
extended only after the dependants of the popped node are enqueued.) -/
theorem claim_C2 :
    (∀ (T : Type) (g : Graph T) (n x : Node), (invTrace g n).count x ≤ 2) ∧
    (∀ (T : Type) (g : Graph T) (n x : Node), ¬SelfLinked g x →
      (invTrace g n).count x ≤ 1) := by
  constructor
  · intro T g n x
    rw [invTrace_eq]
    cases h : traceAux g.links (invFuel g) [n] [] with
    | none => simp
    | some tr =>
      have hb := traceAux_count_le_two g.links (invFuel g) [n] [] tr x h
        (List.nodup_singleton n)
      simpa using hb
  · intro T g n x hns
    have hx : x ∉ dependantsOf g.links x := by
      rw [mem_dependantsOf]
      rintro ⟨l, hl, h2, h1⟩
      exact hns ⟨l, hl, h1, h2⟩
    rw [invTrace_eq]
    cases h : traceAux g.links (invFuel g) [n] [] with
    | none => simp
    | some tr =>
      have hb := traceAux_count_le_one g.links x hx (invFuel g) [n] [] tr h
        (List.nodup_singleton n) (by simp)
      simpa using hb

/-- C2 (witness): node `1` of `exSelfLoop` is not self-linked, so the
amended bound applies to it concretely. -/
theorem claim_C2_witness :
    ¬SelfLinked exSelfLoop 1 ∧ (invTrace exSelfLoop 0).count 1 ≤ 1 :=
  ⟨by decide, claim_C2.2 Nat exSelfLoop 0 1 (by decide)⟩

/-! ### Claim C7 -/

/-- C7: `invalidate(origin)` terminates on every finite graph, cycles and
self-loops included: with fuel `invFuel g = 2 * (|links| + 1) + 1` the
breadth-first loop drains its queue and returns a result (it never hits the
out-of-fuel branch). -/
theorem claim_C7 :
    ∀ (T : Type) (g : Graph T) (n : Node),
      (invalidateAux g (invFuel g) [n] []).isSome := by
  intro T g n
  rw [invalidateAux_eq_traceAux, isSome_map]
  exact traceAux_total g n

/-! ### `dependencies` computes backward reachability -/

theorem lookupA_mem [DecidableEq α] :
    ∀ {m : List (α × β)} {k : α} {v : β}, lookupA m k = some v → (k, v) ∈ m
  | [], _, _, h => by simp [lookupA] at h
  | p :: ps, k, v, h => by
    by_cases hp : p.1 = k
    · simp only [lookupA, if_pos hp] at h
      subst hp
      rw [Option.some_inj] at h
      exact h ▸ List.mem_cons_self _ _
    · simp only [lookupA, if_neg hp] at h
      exact List.mem_cons_of_mem _ (lookupA_mem h)

theorem depsStep_none (links : Links) (dp : List Node × List Node)
    (i : InputId) (ho : lookupL links i = none) : depsStep links dp i = dp := by
  simp only [depsStep, ho]

theorem depsStep_skip (links : Links) (dp : List Node × List Node)
    (i : InputId) (o : OutputId) (ho : lookupL links i = some o)
    (hm : o.node ∈ dp.1 ∨ o.node ∈ dp.2) : depsStep links dp i = dp := by
  simp only [depsStep, ho]
  rw [if_pos hm]

theorem depsStep_push (links : Links) (dp : List Node × List Node)
    (i : InputId) (o : OutputId) (ho : lookupL links i = some o)
    (hm : ¬(o.node ∈ dp.1 ∨ o.node ∈ dp.2)) :
    depsStep links dp i = (dp.1 ++ [o.node], dp.2 ++ [o.node]) := by
  simp only [depsStep, ho]
  rw [if_neg hm]

theorem depsStep_mono_fst (links : Links) (dp : List Node × List Node)
    (i : InputId) {a : Node} (h : a ∈ dp.1) : a ∈ (depsStep links dp i).1 := by
  cases ho : lookupL links i with
  | none => rw [depsStep_none links dp i ho]; exact h
  | some o =>
    by_cases hm : o.node ∈ dp.1 ∨ o.node ∈ dp.2
    · rw [depsStep_skip links dp i o ho hm]; exact h
    · rw [depsStep_push links dp i o ho hm]
      exact List.mem_append_left _ h

theorem depsStep_mono_snd (links : Links) (dp : List Node × List Node)
    (i : InputId) {a : Node} (h : a ∈ dp.2) : a ∈ (depsStep links dp i).2 := by
  cases ho : lookupL links i with
  | none => rw [depsStep_none links dp i ho]; exact h
  | some o =>
    by_cases hm : o.node ∈ dp.1 ∨ o.node ∈ dp.2
    · rw [depsStep_skip links dp i o ho hm]; exact h
    · rw [depsStep_push links dp i o ho hm]
      exact List.mem_append_left _ h

theorem depsFold_mono_fst (links : Links) :
    ∀ (ins : List InputId) (dp : List Node × List Node) {a : Node},
      a ∈ dp.1 → a ∈ (ins.foldl (depsStep links) dp).1
  | [], _, _, h => h
  | i :: ins, dp, a, h => by
    simp only [List.foldl]
    exact depsFold_mono_fst links ins _ (depsStep_mono_fst links dp i h)

theorem depsFold_mono_snd (links : Links) :
    ∀ (ins : List InputId) (dp : List Node × List Node) {a : Node},
      a ∈ dp.2 → a ∈ (ins.foldl (depsStep links) dp).2
  | [], _, _, h => h
  | i :: ins, dp, a, h => by
    simp only [List.foldl]
    exact depsFold_mono_snd links ins _ (depsStep_mono_snd links dp i h)

theorem depsFold_snd_sub (links : Links) :
    ∀ (ins : List InputId) (dp : List Node × List Node) {a : Node},
      a ∈ (ins.foldl (depsStep links) dp).2 →
        a ∈ (ins.foldl (depsStep links) dp).1 ∨ a ∈ dp.2
  | [], _, _, h => Or.inr h
  | i :: ins, dp, a, h => by
    simp only [List.foldl] at h ⊢
    rcases depsFold_snd_sub links ins (depsStep links dp i) h with h1 | h1
    · exact Or.inl h1
    · cases ho : lookupL links i with
      | none =>
        rw [depsStep_none links dp i ho] at h1
        exact Or.inr h1
      | some o =>
        by_cases hm : o.node ∈ dp.1 ∨ o.node ∈ dp.2
        · rw [depsStep_skip links dp i o ho hm] at h1
          exact Or.inr h1
        · rw [depsStep_push links dp i o ho hm] at h1
          rcases List.mem_append.1 h1 with h1 | h1
          · exact Or.inr h1
          · rcases List.mem_singleton.1 h1 with rfl
            refine Or.inl (depsFold_mono_fst links ins _ ?_)
            rw [depsStep_push links dp i o ho hm]
            exact List.mem_append_right _ (List.mem_singleton.2 rfl)

theorem depsFold_fst_mem_snd (links : Links) :
    ∀ (ins : List InputId) (dp : List Node × List Node) {a : Node},
      a ∈ (ins.foldl (depsStep links) dp).1 →
        a ∈ dp.1 ∨ a ∈ (ins.foldl (depsStep links) dp).2
  | [], _, _, h => Or.inl h
  | i :: ins, dp, a, h => by
    simp only [List.foldl] at h ⊢
    rcases depsFold_fst_mem_snd links ins (depsStep links dp i) h with h1 | h1
    · cases ho : lookupL links i with
      | none =>
        rw [depsStep_none links dp i ho] at h1
        exact Or.inl h1
      | some o =>
        by_cases hm : o.node ∈ dp.1 ∨ o.node ∈ dp.2
        · rw [depsStep_skip links dp i o ho hm] at h1
          exact Or.inl h1
        · rw [depsStep_push links dp i o ho hm] at h1
          rcases List.mem_append.1 h1 with h1 | h1
          · exact Or.inl h1
          · rcases List.mem_singleton.1 h1 with rfl
            refine Or.inr (depsFold_mono_snd links ins _ ?_)
            rw [depsStep_push links dp i o ho hm]
            exact List.mem_append_right _ (List.mem_singleton.2 rfl)
    · exact Or.inr h1

theorem depsFold_covers (links : Links) :
    ∀ (ins : List InputId) (dp : List Node × List Node) {i : InputId}
      {o : OutputId}, i ∈ ins → lookupL links i = some o →
        o.node ∈ (ins.foldl (depsStep links) dp).1 ∨
        o.node ∈ (ins.foldl (depsStep links) dp).2
  | [], _, _, _, hi, _ => by simp at hi
  | j :: ins, dp, i, o, hi, ho => by
    simp only [List.foldl]
    rcases List.mem_cons.1 hi with rfl | hi
    · by_cases hm : o.node ∈ dp.1 ∨ o.node ∈ dp.2
      · rcases hm with hm2 | hm2
        · exact Or.inl (depsFold_mono_fst links ins _
            (depsStep_mono_fst links dp i hm2))
        · exact Or.inr (depsFold_mono_snd links ins _
            (depsStep_mono_snd links dp i hm2))
      · refine Or.inl (depsFold_mono_fst links ins _ ?_)
        rw [depsStep_push links dp i o ho hm]
        exact List.mem_append_right _ (List.mem_singleton.2 rfl)
    · exact depsFold_covers links ins _ hi ho

theorem depsFold_fst_new (links : Links) :
    ∀ (ins : List InputId) (dp : List Node × List Node) {a : Node},
      a ∈ (ins.foldl (depsStep links) dp).1 →
        a ∈ dp.1 ∨ ∃ i ∈ ins, ∃ o, lookupL links i = some o ∧ o.node = a
  | [], _, _, h => Or.inl h
  | i :: ins, dp, a, h => by
    simp only [List.foldl] at h
    rcases depsFold_fst_new links ins (depsStep links dp i) h with h1 | h1
    · cases ho : lookupL links i with
      | none =>
        rw [depsStep_none links dp i ho] at h1
        exact Or.inl h1
      | some o =>
        by_cases hm : o.node ∈ dp.1 ∨ o.node ∈ dp.2
        · rw [depsStep_skip links dp i o ho hm] at h1
          exact Or.inl h1
        · rw [depsStep_push links dp i o ho hm] at h1
          rcases List.mem_append.1 h1 with h1 | h1
          · exact Or.inl h1
          · rcases List.mem_singleton.1 h1 with rfl
            exact Or.inr ⟨i, List.mem_cons_self _ _, o, ho, rfl⟩
    · rcases h1 with ⟨j, hj, o, ho2, rfl⟩
      exact Or.inr ⟨j, List.mem_cons_of_mem _ hj, o, ho2, rfl⟩

theorem depsFold_snd_new (links : Links) :
    ∀ (ins : List InputId) (dp : List Node × List Node) {a : Node},
      a ∈ (ins.foldl (depsStep links) dp).2 →
        a ∈ dp.2 ∨ ∃ i ∈ ins, ∃ o, lookupL links i = some o ∧ o.node = a
  | [], _, _, h => Or.inl h
  | i :: ins, dp, a, h => by
    simp only [List.foldl] at h
    rcases depsFold_snd_new links ins (depsStep links dp i) h with h1 | h1
    · cases ho : lookupL links i with
      | none =>
        rw [depsStep_none links dp i ho] at h1
        exact Or.inl h1
      | some o =>
        by_cases hm : o.node ∈ dp.1 ∨ o.node ∈ dp.2
        · rw [depsStep_skip links dp i o ho hm] at h1
          exact Or.inl h1
        · rw [depsStep_push links dp i o ho hm] at h1
          rcases List.mem_append.1 h1 with h1 | h1
          · exact Or.inl h1
          · rcases List.mem_singleton.1 h1 with rfl
            exact Or.inr ⟨i, List.mem_cons_self _ _, o, ho, rfl⟩
    · rcases h1 with ⟨j, hj, o, ho2, rfl⟩
      exact Or.inr ⟨j, List.mem_cons_of_mem _ hj, o, ho2, rfl⟩

theorem depsFold_measure (links : Links) (P : Finset Node)
    (hP : ∀ l ∈ links, l.2.node ∈ P) :
    ∀ (ins : List InputId) (dp : List Node × List Node),
      (ins.foldl (depsStep links) dp).2.length +
          (P \ (ins.foldl (depsStep links) dp).1.toFinset).card ≤
        dp.2.length + (P \ dp.1.toFinset).card
  | [], _ => le_refl _
  | i :: ins, dp => by
    simp only [List.foldl]
    refine le_trans (depsFold_measure links P hP ins (depsStep links dp i)) ?_
    cases ho : lookupL links i with
    | none => rw [depsStep_none links dp i ho]
    | some o =>
      by_cases hm : o.node ∈ dp.1 ∨ o.node ∈ dp.2
      · rw [depsStep_skip links dp i o ho hm]
      · rw [depsStep_push links dp i o ho hm]
        push_neg at hm
        have hoP : o.node ∈ P := hP _ (lookupA_mem ho)
        have hcard : (P \ (dp.1 ++ [o.node]).toFinset).card + 1 ≤
            (P \ dp.1.toFinset).card := by
          have hsub : P \ (dp.1 ++ [o.node]).toFinset ⊂ P \ dp.1.toFinset := by
            constructor
            · intro a ha
              rw [Finset.mem_sdiff] at ha ⊢
              refine ⟨ha.1, fun hc => ha.2 ?_⟩
              rw [List.mem_toFinset] at hc
              rw [List.mem_toFinset]
              exact List.mem_append_left _ hc
            · intro hsub
              have hom : o.node ∈ P \ dp.1.toFinset := by
                rw [Finset.mem_sdiff, List.mem_toFinset]
                exact ⟨hoP, hm.1⟩
              have := hsub hom
              rw [Finset.mem_sdiff, List.mem_toFinset] at this
              exact this.2 (List.mem_append_right _ (List.mem_singleton.2 rfl))
          exact Finset.card_lt_card hsub
        simp only [List.length_append, List.length_singleton]
        omega

theorem depsAux_nil (g : Graph T) :
    ∀ (fuel : Nat) (deps : List Node),
      dependenciesAux g fuel [] deps = some deps
  | 0, _ => rfl
  | _ + 1, _ => rfl

theorem depsAux_isSome (g : Graph T) (P : Finset Node)
    (hP : ∀ l ∈ g.links, l.2.node ∈ P) :
    ∀ (fuel : Nat) (pending deps : List Node),
      pending.length + (P \ deps.toFinset).card < fuel →
      (dependenciesAux g fuel pending deps).isSome
  | 0, pending, deps, h => by omega
  | fuel + 1, [], deps, _ => by simp [dependenciesAux]
  | fuel + 1, x :: rest, deps, h => by
    simp only [dependenciesAux]
    cases lookupN g.nodes x with
    | none =>
      refine depsAux_isSome g P hP fuel rest deps ?_
      simp only [List.length_cons] at h
      omega
    | some st =>
      refine depsAux_isSome g P hP fuel _ _ ?_
      have hm := depsFold_measure g.links P hP st.inputs (deps, rest)
      have e1 : ((deps, rest) : List Node × List Node).2 = rest := rfl
      have e2 : ((deps, rest) : List Node × List Node).1 = deps := rfl
      rw [e1, e2] at hm
      simp only [List.length_cons] at h
      omega

theorem depsAux_closed (g : Graph T) :
    ∀ (fuel : Nat) (pending deps D : List Node),
      dependenciesAux g fuel pending deps = some D →
      (∀ x ∈ pending, x ∈ deps) →
      (∀ x ∈ deps, x ∉ pending → ∀ y, bstep g x y → y ∈ deps) →
      (∀ x ∈ deps, x ∈ D) ∧ (∀ x ∈ D, ∀ y, bstep g x y → y ∈ D)
  | 0, pending, deps, D, hD, hsub, hcl => by
    by_cases h : pending.isEmpty <;> simp [dependenciesAux, h] at hD
    subst hD
    rw [List.isEmpty_iff] at h
    subst h
    exact ⟨fun x hx => hx, fun x hx y hy => hcl x hx (by simp) y hy⟩
  | fuel + 1, [], deps, D, hD, hsub, hcl => by
    rw [depsAux_nil] at hD
    rw [Option.some_inj] at hD
    subst hD
    exact ⟨fun x hx => hx, fun x hx y hy => hcl x hx (by simp) y hy⟩
  | fuel + 1, x :: rest, deps, D, hD, hsub, hcl => by
    simp only [dependenciesAux] at hD
    cases hst : lookupN g.nodes x with
    | none =>
      rw [hst] at hD
      have hD2 : dependenciesAux g fuel rest deps = some D := hD
      have := depsAux_closed g fuel rest deps D hD2
        (fun z hz => hsub z (List.mem_cons_of_mem _ hz))
        (fun z hz hzr y hy => by
          by_cases hzx : z = x
          · subst hzx
            rcases hy with ⟨st, hst2, _⟩
            rw [hst] at hst2
            exact absurd hst2 (by simp)
          · exact hcl z hz (fun hc => by
              rcases List.mem_cons.1 hc with h | h
              · exact hzx h
              · exact hzr h) y hy)
      exact this
    | some st =>
      rw [hst] at hD
      have hD2 : dependenciesAux g fuel
          (st.inputs.foldl (depsStep g.links) (deps, rest)).2
          (st.inputs.foldl (depsStep g.links) (deps, rest)).1 = some D := hD
      have hrec := depsAux_closed g fuel
        (st.inputs.foldl (depsStep g.links) (deps, rest)).2
        (st.inputs.foldl (depsStep g.links) (deps, rest)).1 D hD2
        (fun z hz => by
          rcases depsFold_snd_sub g.links st.inputs (deps, rest) hz with h | h
          · exact h
          · exact depsFold_mono_fst g.links st.inputs (deps, rest)
              (hsub z (List.mem_cons_of_mem _ h)))
        (fun z hz hzp y hy => by
          by_cases hzx : z = x
          · subst hzx
            rcases hy with ⟨st2, hst2, i, hi, o, ho, rfl⟩
            rw [hst] at hst2
            rw [Option.some_inj] at hst2
            subst hst2
            rcases depsFold_covers g.links st.inputs (deps, rest) hi ho
              with h | h
            · exact h
            · rcases depsFold_snd_sub g.links st.inputs (deps, rest) h
                with h2 | h2
              · exact h2
              · exact depsFold_mono_fst g.links st.inputs (deps, rest)
                  (hsub _ (List.mem_cons_of_mem _ h2))
          · rcases depsFold_fst_mem_snd g.links st.inputs (deps, rest) hz
              with h | h
            · refine depsFold_mono_fst g.links st.inputs (deps, rest) ?_
              refine hcl z h (fun hc => ?_) y hy
              rcases List.mem_cons.1 hc with hc | hc
              · exact hzx hc
              · exact hzp (depsFold_mono_snd g.links st.inputs (deps, rest) hc)
            · exact absurd h hzp)
      exact ⟨fun z hz => hrec.1 z
        (depsFold_mono_fst g.links st.inputs (deps, rest) hz), hrec.2⟩

theorem transGen_first {r : α → α → Prop} {a b : α}
    (h : Relation.TransGen r a b) : ∃ c, r a c := by
  induction h with
  | single h => exact ⟨_, h⟩
  | tail _ _ ih => exact ih

theorem depsAux_sound (g : Graph T) (n : Node) :
    ∀ (fuel : Nat) (pending deps D : List Node),
      dependenciesAux g fuel pending deps = some D →
      (∀ x ∈ pending, x = n ∨ Relation.TransGen (bstep g) n x) →
      (∀ x ∈ deps, Relation.TransGen (bstep g) n x) →
      ∀ x ∈ D, Relation.TransGen (bstep g) n x
  | 0, pending, deps, D, hD, _, hdeps => by
    by_cases h : pending.isEmpty <;> simp [dependenciesAux, h] at hD
    subst hD
    exact hdeps
  | fuel + 1, [], deps, D, hD, _, hdeps => by
    rw [depsAux_nil] at hD
    rw [Option.some_inj] at hD
    subst hD
    exact hdeps
  | fuel + 1, x :: rest, deps, D, hD, hpend, hdeps => by
    simp only [dependenciesAux] at hD
    cases hst : lookupN g.nodes x with
    | none =>
      rw [hst] at hD
      have hD2 : dependenciesAux g fuel rest deps = some D := hD
      exact depsAux_sound g n fuel rest deps D hD2
        (fun z hz => hpend z (List.mem_cons_of_mem _ hz)) hdeps
    | some st =>
      rw [hst] at hD
      have hD2 : dependenciesAux g fuel
          (st.inputs.foldl (depsStep g.links) (deps, rest)).2
          (st.inputs.foldl (depsStep g.links) (deps, rest)).1 = some D := hD
      have hnbr : ∀ {y : Node},
          (∃ i ∈ st.inputs, ∃ o, lookupL g.links i = some o ∧ o.node = y) →
          Relation.TransGen (bstep g) n y := by
        rintro y ⟨i, hi, o, ho, rfl⟩
        have hstep : bstep g x o.node := ⟨st, hst, i, hi, o, ho, rfl⟩
        rcases hpend x (List.mem_cons_self _ _) with rfl | hx
        · exact Relation.TransGen.single hstep
        · exact Relation.TransGen.tail hx hstep
      refine depsAux_sound g n fuel _ _ D hD2 ?_ ?_
      · intro z hz
        rcases depsFold_snd_new g.links st.inputs (deps, rest) hz with h | h
        · exact hpend z (List.mem_cons_of_mem _ h)
        · exact Or.inr (hnbr h)
      · intro z hz
        rcases depsFold_fst_new g.links st.inputs (deps, rest) hz with h | h
        · exact hdeps z h
        · exact hnbr h

theorem dependencies_isSome (g : Graph T) (n : Node) :
    (dependenciesAux g (depsFuel g) [n] []).isSome := by
  classical
  refine depsAux_isSome g (g.links.map fun l => l.2.node).toFinset
    (fun l hl => List.mem_toFinset.2 (List.mem_map.2 ⟨l, hl, rfl⟩))
    (depsFuel g) [n] [] ?_
  have h1 : ((g.links.map fun l => l.2.node).toFinset \
      ([] : List Node).toFinset).card ≤ g.links.length := by
    rw [List.toFinset_nil, Finset.sdiff_empty]
    calc ((g.links.map fun l => l.2.node).toFinset).card
        ≤ (g.links.map fun l => l.2.node).length := List.toFinset_card_le _
      _ = g.links.length := List.length_map _ _
  simp only [depsFuel, List.length_singleton]
  omega

/-- C4's amended content: membership in `dependencies(n)` is exactly
backward reachability from `n` through at least one link. -/
theorem dependencies_iff (g : Graph T) (n m : Node) :
    m ∈ g.dependencies n ↔ Relation.TransGen (bstep g) n m := by
  obtain ⟨D, hD⟩ := Option.isSome_iff_exists.1 (dependencies_isSome g n)
  have hdefD : g.dependencies n = D := by
    unfold Graph.dependencies
    rw [hD]
    rfl
  constructor
  · intro hm
    rw [hdefD] at hm
    exact depsAux_sound g n (depsFuel g) [n] [] D hD
      (fun x hx => Or.inl (List.mem_singleton.1 hx)) (by simp) m hm
  · intro hreach
    rw [hdefD]
    have hfuel : depsFuel g = (g.links.length + 1) + 1 := rfl
    rw [hfuel] at hD
    simp only [dependenciesAux] at hD
    cases hst : lookupN g.nodes n with
    | none =>
      exfalso
      obtain ⟨c, hc⟩ := transGen_first hreach
      rcases hc with ⟨st, hst2, _⟩
      rw [hst] at hst2
      exact absurd hst2 (by simp)
    | some st =>
      rw [hst] at hD
      have hD2 : dependenciesAux g (g.links.length + 1)
          (st.inputs.foldl (depsStep g.links) (([] : List Node), ([] : List Node))).2
          (st.inputs.foldl (depsStep g.links) (([] : List Node), ([] : List Node))).1 =
            some D := hD
      have hrec := depsAux_closed g (g.links.length + 1) _ _ D hD2
        (fun z hz => by
          rcases depsFold_snd_sub g.links st.inputs ([], []) hz with h | h
          · exact h
          · simp at h)
        (fun z hz hzp _ _ => by
          rcases depsFold_fst_mem_snd g.links st.inputs ([], []) hz with h | h
          · simp at h
          · exact absurd h hzp)
      have hseed : ∀ y, bstep g n y → y ∈ D := by
        rintro y ⟨st2, hst2, i, hi, o, ho, rfl⟩
        rw [hst] at hst2
        rw [Option.some_inj] at hst2
        subst hst2
        refine hrec.1 _ ?_
        rcases depsFold_covers g.links st.inputs ([], []) hi ho with h | h
        · exact h
        · rcases depsFold_snd_sub g.links st.inputs ([], []) h with h2 | h2
          · exact h2
          · simp at h2
      induction hreach with
      | single h => exact hseed _ h
      | tail _ hstep ih => exact hrec.2 _ ih _ hstep

/-! ### Claim C4 -/

/-- C4 (counterexample): in `exSelfLoop`, node `0`'s input is linked to its
own output, and `dependencies(0)` contains `0` itself — contradicting the
claim that the set never contains the queried node. -/
theorem claim_C4_counterexample : 0 ∈ Graph.dependencies exSelfLoop 0 := by
  decide

/-- C4 (amended): `dependencies(n)` is exactly the set of nodes reachable
from `n` by following at least one link backward (input to owning node of
the linked output); consequently it contains `n` itself exactly when `n`
lies on a backward cycle, rather than never. -/
theorem claim_C4 :
    ∀ (T : Type) (g : Graph T) (n m : Node),
      m ∈ g.dependencies n ↔ Relation.TransGen (bstep g) n m :=
  fun _ g n m => dependencies_iff g n m

/-! ### Link-table preservation by each public operation -/

theorem link_links (g : Graph T) (i : InputId) (o : OutputId) :
    (g.link i o).links = insertL g.links i o := by
  unfold Graph.link
  rw [invalidate_links]

theorem updateBase_links [Inhabited O] (g : Graph T) (n : Node)
    (f : T → Data → T × Values × O) : (updateBase g n f).1.links = g.links := by
  unfold updateBase
  cases lookupN g.nodes n <;> rfl

theorem update_links [Inhabited O] (g : Graph T) (n : Node)
    (f : T → Data → T × Values × O) : (g.update n f).1.links = g.links := by
  unfold Graph.update
  cases lookupN g.nodes n with
  | none => rfl
  | some st =>
    show ((updateBase g n f).1.invalidate n).links = g.links
    rw [invalidate_links, updateBase_links]

theorem pushNode_links (g : Graph T) (a b : List String) (p : Int × Int)
    (st : T) : (g.pushNode a b p st).links = g.links := by
  unfold Graph.pushNode
  rw [invalidate_links]

theorem moveTo_links (g : Graph T) (n : Node) (p : Int × Int) :
    (g.moveTo n p).links = g.links := by
  unfold Graph.moveTo
  cases lookupN g.nodes n <;> rfl

theorem applyOp_links_nodup (g : Graph T) (op : Op T)
    (h : (g.links.map Prod.fst).Nodup) :
    ((applyOp g op).links.map Prod.fst).Nodup := by
  cases op with
  | link i o =>
    show ((g.link i o).links.map Prod.fst).Nodup
    rw [link_links]
    exact keys_nodup_insertA i o h
  | update n f =>
    show (((g.update n f).1).links.map Prod.fst).Nodup
    rw [update_links]
    exact h
  | pushNode a b p st =>
    show ((g.pushNode a b p st).links.map Prod.fst).Nodup
    rw [pushNode_links]
    exact h
  | moveTo n p =>
    show ((g.moveTo n p).links.map Prod.fst).Nodup
    rw [moveTo_links]
    exact h

theorem applyOps_links_nodup :
    ∀ (ops : List (Op T)) (g : Graph T), (g.links.map Prod.fst).Nodup →
      ((applyOps g ops).links.map Prod.fst).Nodup
  | [], _, h => h
  | op :: ops, g, h =>
    applyOps_links_nodup ops (applyOp g op) (applyOp_links_nodup g op h)

/-! ### Claim C6 -/

/-- C6: after any sequence of public operations starting from a fresh graph,
the link table binds each `InputId` at most once (its key list has no
duplicate), and linking the same input twice leaves exactly the single
binding from the second call. -/
theorem claim_C6 :
    (∀ (T : Type) (ev : T → Data → T × Values) (ops : List (Op T)),
      (((applyOps (Graph.new ev) ops).links.map Prod.fst).Nodup)) ∧
    (∀ (T : Type) (g : Graph T) (i : InputId) (o1 o2 : OutputId),
      ((g.link i o1).link i o2).links.filter (fun l => l.1 = i) = [(i, o2)]) := by
  constructor
  · intro T ev ops
    exact applyOps_links_nodup ops (Graph.new ev) (by simp [Graph.new])
  · intro T g i o1 o2
    rw [link_links, link_links]
    exact filter_insertA_eq _ i o2

/-! ### Claim C8 -/

theorem traceAux_no_dependants (links : Links) (n : Node)
    (h1 : dependantsOf links n = []) :
    ∀ fuel, traceAux links (fuel + 2) [n] [] = some [n] := by
  intro fuel
  simp [traceAux, h1, pushPending]

/-- C8 (counterexample): `exDangling` registers only node `0`, whose input
is linked to an output of the unregistered id `7`.  `invalidate(7)` still
evaluates node `0` (the counting callback raises its state from `0` to
`1`), so invalidating an unknown node does not leave the registry
unchanged. -/
theorem claim_C8_counterexample :
    Graph.get exDangling 7 = none ∧
    Graph.get exDangling 0 = some 0 ∧
    Graph.get (Graph.invalidate exDangling 7) 0 = some 1 :=
  ⟨rfl, rfl, by decide⟩

/-- C8 (amended): for an id `n` absent from the registry, `get(n)` returns
nothing, `update(n, f)` returns the default and leaves the graph untouched
(and is independent of `f`), and `evaluate(n)` is a no-op; `invalidate(n)`
is a no-op provided additionally no input in the link table is linked to an
output owned by `n` — otherwise it re-evaluates the dependants of `n`. -/
theorem claim_C8 :
    ∀ (T : Type) (g : Graph T) (n : Node) (O : Type) [Inhabited O]
      (f : T → Data → T × Values × O),
      lookupN g.nodes n = none →
      g.get n = none ∧
      g.update n f = (g, default) ∧
      evaluateNode g n = g ∧
      ((∀ l ∈ g.links, l.2.node ≠ n) → g.invalidate n = g) := by
  intro T g n O hO f h
  refine ⟨?_, ?_, ?_, ?_⟩
  · unfold Graph.get
    rw [h]
    rfl
  · unfold Graph.update
    rw [h]
  · unfold evaluateNode
    rw [h]
  · intro hl
    have h1 : dependantsOf g.links n = [] := by
      unfold dependantsOf
      have : g.links.filter (fun l => l.2.node = n) = [] := by
        rw [List.filter_eq_nil_iff]
        intro l hlm
        simpa using hl l hlm
      rw [this]
      rfl
    have hfuel : invFuel g = (2 * g.links.length + 1) + 2 := by
      unfold invFuel
      omega
    rw [invalidate_eq_fold, hfuel, traceAux_no_dependants g.links n h1]
    show evaluateNode g n = g
    unfold evaluateNode
    rw [h]

/-- C8 (witness): the amended statement applied to `exDangling` and the
unregistered id `9`, which owns no linked output. -/
theorem claim_C8_witness :
    lookupN exDangling.nodes 9 = none ∧
    (∀ l ∈ exDangling.links, l.2.node ≠ 9) ∧
    Graph.get exDangling 9 = none ∧
    Graph.invalidate exDangling 9 = exDangling :=
  ⟨rfl, by decide,
    (claim_C8 Nat exDangling 9 Nat (fun t d => (t, d.values, 0)) rfl).1,
    (claim_C8 Nat exDangling 9 Nat (fun t d => (t, d.values, 0)) rfl).2.2.2
      (by decide)⟩

/-! ### The Kahn loop of `schedule` -/

theorem schedConn_eq_true {links : Links} {curOuts : List OutputId}
    {i : InputId} :
    schedConn links curOuts i = true ↔
      ∃ o, lookupL links i = some o ∧ o ∈ curOuts := by
  unfold schedConn
  cases ho : lookupL links i <;> simp

theorem removeA_length_le [DecidableEq α] :
    ∀ (m : List (α × β)) (k : α), (removeA m k).length ≤ m.length
  | [], _ => le_refl _
  | p :: ps, k => by
    by_cases hp : p.1 = k
    · simp only [removeA, if_pos hp, List.length_cons]
      exact le_trans (removeA_length_le ps k) (Nat.le_succ _)
    · simp only [removeA, if_neg hp, List.length_cons]
      exact Nat.succ_le_succ (removeA_length_le ps k)

theorem removeA_length_lt [DecidableEq α] :
    ∀ (m : List (α × β)) {k : α} {v : β},
      lookupA m k = some v → (removeA m k).length < m.length
  | [], _, _, h => by simp [lookupA] at h
  | p :: ps, k, v, h => by
    by_cases hp : p.1 = k
    · simp only [removeA, if_pos hp, List.length_cons]
      exact Nat.lt_succ_of_le (removeA_length_le ps k)
    · simp only [lookupA, if_neg hp] at h
      simp only [removeA, if_neg hp, List.length_cons]
      exact Nat.succ_lt_succ (removeA_length_lt ps h)

theorem isRoot_removeL {st : State T} {links : Links} (conn : InputId)
    (h : st.isRoot links = true) : st.isRoot (removeL links conn) = true := by
  unfold State.isRoot at h ⊢
  rw [List.all_eq_true] at h ⊢
  intro i hi
  have hnone := h i hi
  rw [Option.isNone_iff_eq_none] at hnone ⊢
  by_cases hic : i = conn
  · subst hic
    exact lookupA_removeA_self _ _
  · show lookupA (removeA links conn) i = none
    rw [lookupA_removeA_ne _ hic]
    exact hnone

theorem schedStep_none (g : Graph T) (curOuts : List OutputId)
    (lp : Links × List Node) (cand : Node)
    (h : lookupN g.nodes cand = none) :
    schedStep g curOuts lp cand = lp := by
  simp only [schedStep, h]

theorem schedStep_nofind (g : Graph T) (curOuts : List OutputId)
    (lp : Links × List Node) (cand : Node) (cst : State T)
    (h : lookupN g.nodes cand = some cst)
    (hf : cst.inputs.find? (schedConn lp.1 curOuts) = none) :
    schedStep g curOuts lp cand = lp := by
  simp only [schedStep, h, hf]

theorem schedStep_found (g : Graph T) (curOuts : List OutputId)
    (lp : Links × List Node) (cand : Node) (cst : State T) (conn : InputId)
    (h : lookupN g.nodes cand = some cst)
    (hf : cst.inputs.find? (schedConn lp.1 curOuts) = some conn) :
    schedStep g curOuts lp cand =
      (removeL lp.1 conn,
        if cst.isRoot (removeL lp.1 conn) then cand :: lp.2 else lp.2) := by
  simp only [schedStep, h, hf]
  split <;> simp_all

theorem schedStep_fst_sub (g : Graph T) (curOuts : List OutputId)
    (lp : Links × List Node) (cand : Node) {l : InputId × OutputId}
    (h : l ∈ (schedStep g curOuts lp cand).1) : l ∈ lp.1 := by
  cases hn : lookupN g.nodes cand with
  | none =>
    rw [schedStep_none g curOuts lp cand hn] at h
    exact h
  | some cst =>
    cases hf : cst.inputs.find? (schedConn lp.1 curOuts) with
    | none =>
      rw [schedStep_nofind g curOuts lp cand cst hn hf] at h
      exact h
    | some conn =>
      rw [schedStep_found g curOuts lp cand cst conn hn hf] at h
      exact (mem_removeA h).1

theorem schedStep_snd_sub (g : Graph T) (curOuts : List OutputId)
    (lp : Links × List Node) (cand : Node) {m : Node}
    (h : m ∈ (schedStep g curOuts lp cand).2) : m ∈ lp.2 ∨ m = cand := by
  cases hn : lookupN g.nodes cand with
  | none =>
    rw [schedStep_none g curOuts lp cand hn] at h
    exact Or.inl h
  | some cst =>
    cases hf : cst.inputs.find? (schedConn lp.1 curOuts) with
    | none =>
      rw [schedStep_nofind g curOuts lp cand cst hn hf] at h
      exact Or.inl h
    | some conn =>
      rw [schedStep_found g curOuts lp cand cst conn hn hf] at h
      by_cases hr : cst.isRoot (removeL lp.1 conn)
      · rw [if_pos hr] at h
        rcases List.mem_cons.1 h with rfl | h
        · exact Or.inr rfl
        · exact Or.inl h
      · rw [if_neg hr] at h
        exact Or.inl h

theorem schedStep_measure (g : Graph T) (curOuts : List OutputId)
    (lp : Links × List Node) (cand : Node) :
    (schedStep g curOuts lp cand).1.length +
        (schedStep g curOuts lp cand).2.length ≤
      lp.1.length + lp.2.length := by
  cases hn : lookupN g.nodes cand with
  | none => rw [schedStep_none g curOuts lp cand hn]
  | some cst =>
    cases hf : cst.inputs.find? (schedConn lp.1 curOuts) with
    | none => rw [schedStep_nofind g curOuts lp cand cst hn hf]
    | some conn =>
      rw [schedStep_found g curOuts lp cand cst conn hn hf]
      have hp := List.find?_some hf
      obtain ⟨o, ho, _⟩ := schedConn_eq_true.1 hp
      have hlt : (removeL lp.1 conn).length < lp.1.length :=
        removeA_length_lt lp.1 ho
      have e1 : ∀ p : List Node,
          ((removeL lp.1 conn, p) : Links × List Node).1 = removeL lp.1 conn :=
        fun _ => rfl
      have e2 : ∀ p : List Node,
          ((removeL lp.1 conn, p) : Links × List Node).2 = p := fun _ => rfl
      by_cases hr : cst.isRoot (removeL lp.1 conn)
      · rw [if_pos hr, e1, e2]
        simp only [List.length_cons]
        omega
      · rw [if_neg hr, e1, e2]
        omega

theorem schedFold_measure (g : Graph T) (curOuts : List OutputId) :
    ∀ (cands : List Node) (lp : Links × List Node),
      (cands.foldl (schedStep g curOuts) lp).1.length +
          (cands.foldl (schedStep g curOuts) lp).2.length ≤
        lp.1.length + lp.2.length
  | [], _ => le_refl _
  | c :: cands, lp => by
    simp only [List.foldl]
    exact le_trans (schedFold_measure g curOuts cands _)
      (schedStep_measure g curOuts lp c)

theorem schedFold_snd_sub (g : Graph T) (curOuts : List OutputId) :
    ∀ (cands : List Node) (lp : Links × List Node) {m : Node},
      m ∈ (cands.foldl (schedStep g curOuts) lp).2 →
        m ∈ lp.2 ∨ m ∈ cands
  | [], _, _, h => Or.inl h
  | c :: cands, lp, m, h => by
    simp only [List.foldl] at h
    rcases schedFold_snd_sub g curOuts cands _ h with h1 | h1
    · rcases schedStep_snd_sub g curOuts lp c h1 with h2 | rfl
      · exact Or.inl h2
      · exact Or.inr (List.mem_cons_self _ _)
    · exact Or.inr (List.mem_cons_of_mem _ h1)

theorem schedAux_isSome (g : Graph T) (deps : List Node) :
    ∀ (fuel : Nat) (links : Links) (pending sched : List Node),
      pending.length + links.length < fuel →
      (scheduleAux g deps fuel links pending sched).isSome
  | 0, _, _, _, h => by omega
  | fuel + 1, links, [], sched, _ => by simp [scheduleAux]
  | fuel + 1, links, cur :: rest, sched, h => by
    simp only [scheduleAux]
    cases lookupN g.nodes cur with
    | none =>
      refine schedAux_isSome g deps fuel links rest sched ?_
      simp only [List.length_cons] at h
      omega
    | some curSt =>
      refine schedAux_isSome g deps fuel _ _ _ ?_
      have hm := schedFold_measure g curSt.outputs deps (links, rest)
      have e1 : ((links, rest) : Links × List Node).1 = links := rfl
      have e2 : ((links, rest) : Links × List Node).2 = rest := rfl
      rw [e1, e2] at hm
      simp only [List.length_cons] at h
      omega

theorem schedAux_subset (g : Graph T) (deps : List Node) :
    ∀ (fuel : Nat) (links : Links) (pending sched S : List Node),
      scheduleAux g deps fuel links pending sched = some S →
      (∀ m ∈ pending, m ∈ deps) →
      ∀ m ∈ S, m ∈ deps ∨ m ∈ sched
  | 0, links, pending, sched, S, hS, _ => by
    by_cases h : pending.isEmpty <;> simp [scheduleAux, h] at hS
    subst hS
    exact fun m hm => Or.inr hm
  | fuel + 1, links, [], sched, S, hS, _ => by
    simp only [scheduleAux, Option.some_inj] at hS
    subst hS
    exact fun m hm => Or.inr hm
  | fuel + 1, links, cur :: rest, sched, S, hS, hpend => by
    simp only [scheduleAux] at hS
    cases hn : lookupN g.nodes cur with
    | none =>
      rw [hn] at hS
      have hS2 : scheduleAux g deps fuel links rest sched = some S := hS
      exact schedAux_subset g deps fuel links rest sched S hS2
        fun m hm => hpend m (List.mem_cons_of_mem _ hm)
    | some curSt =>
      rw [hn] at hS
      have hS2 : scheduleAux g deps fuel
          (deps.foldl (schedStep g curSt.outputs) (links, rest)).1
          (deps.foldl (schedStep g curSt.outputs) (links, rest)).2
          (sched ++ [cur]) = some S := hS
      intro m hm
      rcases schedAux_subset g deps fuel _ _ _ S hS2
        (fun z hz => by
          rcases schedFold_snd_sub g curSt.outputs deps (links, rest) hz
            with h1 | h1
          · exact hpend z (List.mem_cons_of_mem _ h1)
          · exact h1)
        m hm with h | h
      · exact Or.inl h
      · rcases List.mem_append.1 h with h | h
        · exact Or.inr h
        · rcases List.mem_singleton.1 h with rfl
          exact Or.inl (hpend _ (List.mem_cons_self _ _))

theorem wellFormed_outputs_node (g : Graph T) (hwf : WellFormed g) {m : Node}
    {st : State T} (hm : lookupN g.nodes m = some st) :
    ∀ o ∈ st.outputs, o.node = m := by
  intro o ho
  exact ((hwf.2.2 (m, st) (lookupA_mem hm)).2.2.2) o ho

theorem schedStep_inv (g : Graph T) (hwf : WellFormed g) (cur : Node)
    (curSt : State T) (hcur : lookupN g.nodes cur = some curSt)
    (schedN : List Node) (hcurS : cur ∈ schedN)
    (lp : Links × List Node) (cand : Node)
    (h1 : ∀ l ∈ lp.1, l ∈ g.links)
    (h2 : ∀ i o, lookupL g.links i = some o →
      lookupL lp.1 i = some o ∨ o.node ∈ schedN)
    (h3 : ∀ m ∈ lp.2, ∃ st, lookupN g.nodes m = some st ∧
      st.isRoot lp.1 = true) :
    (∀ l ∈ (schedStep g curSt.outputs lp cand).1, l ∈ g.links) ∧
    (∀ i o, lookupL g.links i = some o →
      lookupL (schedStep g curSt.outputs lp cand).1 i = some o ∨
        o.node ∈ schedN) ∧
    (∀ m ∈ (schedStep g curSt.outputs lp cand).2, ∃ st,
      lookupN g.nodes m = some st ∧
        st.isRoot (schedStep g curSt.outputs lp cand).1 = true) := by
  cases hn : lookupN g.nodes cand with
  | none =>
    rw [schedStep_none g curSt.outputs lp cand hn]
    exact ⟨h1, h2, h3⟩
  | some cst =>
    cases hf : cst.inputs.find? (schedConn lp.1 curSt.outputs) with
    | none =>
      rw [schedStep_nofind g curSt.outputs lp cand cst hn hf]
      exact ⟨h1, h2, h3⟩
    | some conn =>
      rw [schedStep_found g curSt.outputs lp cand cst conn hn hf]
      obtain ⟨ow, how, howm⟩ := schedConn_eq_true.1 (List.find?_some hf)
      have e1 : ∀ p : List Node,
          ((removeL lp.1 conn, p) : Links × List Node).1 = removeL lp.1 conn :=
        fun _ => rfl
      have e2 : ∀ p : List Node,
          ((removeL lp.1 conn, p) : Links × List Node).2 = p := fun _ => rfl
      have hsub : ∀ l ∈ removeL lp.1 conn, l ∈ g.links :=
        fun l hl => h1 l (mem_removeA hl).1
      have hk2 : ∀ i o, lookupL g.links i = some o →
          lookupL (removeL lp.1 conn) i = some o ∨ o.node ∈ schedN := by
        intro i o ho
        rcases h2 i o ho with hio | hio
        · by_cases hic : i = conn
          · subst hic
            rw [hio] at how
            rw [Option.some_inj] at how
            subst how
            refine Or.inr ?_
            have : o.node = cur := wellFormed_outputs_node g hwf hcur o howm
            rw [this]
            exact hcurS
          · refine Or.inl ?_
            show lookupA (removeA lp.1 conn) i = some o
            rw [lookupA_removeA_ne _ hic]
            exact hio
        · exact Or.inr hio
      have hk3base : ∀ m ∈ lp.2, ∃ st, lookupN g.nodes m = some st ∧
          st.isRoot (removeL lp.1 conn) = true := by
        intro m hm
        obtain ⟨st, hst, hroot⟩ := h3 m hm
        exact ⟨st, hst, isRoot_removeL conn hroot⟩
      by_cases hr : cst.isRoot (removeL lp.1 conn)
      · rw [if_pos hr, e1, e2]
        refine ⟨hsub, hk2, ?_⟩
        intro m hm
        rcases List.mem_cons.1 hm with rfl | hm
        · exact ⟨cst, hn, hr⟩
        · exact hk3base m hm
      · rw [if_neg hr, e1, e2]
        exact ⟨hsub, hk2, hk3base⟩

theorem schedFold_inv (g : Graph T) (hwf : WellFormed g) (cur : Node)
    (curSt : State T) (hcur : lookupN g.nodes cur = some curSt)
    (schedN : List Node) (hcurS : cur ∈ schedN) :
    ∀ (cands : List Node) (lp : Links × List Node),
      (∀ l ∈ lp.1, l ∈ g.links) →
      (∀ i o, lookupL g.links i = some o →
        lookupL lp.1 i = some o ∨ o.node ∈ schedN) →
      (∀ m ∈ lp.2, ∃ st, lookupN g.nodes m = some st ∧
        st.isRoot lp.1 = true) →
      (∀ l ∈ (cands.foldl (schedStep g curSt.outputs) lp).1, l ∈ g.links) ∧
      (∀ i o, lookupL g.links i = some o →
        lookupL (cands.foldl (schedStep g curSt.outputs) lp).1 i = some o ∨
          o.node ∈ schedN) ∧
      (∀ m ∈ (cands.foldl (schedStep g curSt.outputs) lp).2, ∃ st,
        lookupN g.nodes m = some st ∧
          st.isRoot (cands.foldl (schedStep g curSt.outputs) lp).1 = true)
  | [], lp, h1, h2, h3 => ⟨h1, h2, h3⟩
  | c :: cands, lp, h1, h2, h3 => by
    simp only [List.foldl]
    obtain ⟨n1, n2, n3⟩ :=
      schedStep_inv g hwf cur curSt hcur schedN hcurS lp c h1 h2 h3
    exact schedFold_inv g hwf cur curSt hcur schedN hcurS cands _ n1 n2 n3

theorem concat_split {L pre post : List α} {c m : α}
    (h : L ++ [c] = pre ++ m :: post) :
    (∃ post2, L = pre ++ m :: post2 ∧ post = post2 ++ [c]) ∨
      (pre = L ∧ m = c ∧ post = []) := by
  rcases List.eq_nil_or_concat post with rfl | ⟨post2, d, rfl⟩
  · right
    have h2 := List.append_inj' h (by simp)
    obtain ⟨hL, hc⟩ := h2
    rw [List.cons.injEq] at hc
    exact ⟨hL.symm, hc.1.symm, rfl⟩
  · left
    rw [List.concat_eq_append] at h
    rw [show pre ++ m :: (post2 ++ [d]) = (pre ++ m :: post2) ++ [d] by simp] at h
    have h2 := List.append_inj' h (by simp)
    obtain ⟨hL, hc⟩ := h2
    rw [List.cons.injEq] at hc
    exact ⟨post2, hL, by rw [List.concat_eq_append, hc.1]⟩

theorem schedAux_order (g : Graph T) (hwf : WellFormed g) (deps : List Node) :
    ∀ (fuel : Nat) (links : Links) (pending sched S : List Node),
      scheduleAux g deps fuel links pending sched = some S →
      (∀ l ∈ links, l ∈ g.links) →
      (∀ i o, lookupL g.links i = some o →
        lookupL links i = some o ∨ o.node ∈ sched) →
      (∀ m ∈ pending, ∃ st, lookupN g.nodes m = some st ∧
        st.isRoot links = true) →
      (∀ pre m post, sched = pre ++ m :: post →
        ∀ st, lookupN g.nodes m = some st → ∀ i ∈ st.inputs, ∀ o,
          lookupL g.links i = some o → o.node ∈ pre) →
      (∀ pre m post, S = pre ++ m :: post →
        ∀ st, lookupN g.nodes m = some st → ∀ i ∈ st.inputs, ∀ o,
          lookupL g.links i = some o → o.node ∈ pre)
  | 0, links, pending, sched, S, hS, _, _, _, hord => by
    by_cases h : pending.isEmpty <;> simp [scheduleAux, h] at hS
    subst hS
    exact hord
  | fuel + 1, links, [], sched, S, hS, _, _, _, hord => by
    simp only [scheduleAux, Option.some_inj] at hS
    subst hS
    exact hord
  | fuel + 1, links, cur :: rest, sched, S, hS, h1, h2, h3, hord => by
    simp only [scheduleAux] at hS
    cases hn : lookupN g.nodes cur with
    | none =>
      rw [hn] at hS
      have hS2 : scheduleAux g deps fuel links rest sched = some S := hS
      exact schedAux_order g hwf deps fuel links rest sched S hS2 h1 h2
        (fun m hm => h3 m (List.mem_cons_of_mem _ hm)) hord
    | some curSt =>
      rw [hn] at hS
      have hS2 : scheduleAux g deps fuel
          (deps.foldl (schedStep g curSt.outputs) (links, rest)).1
          (deps.foldl (schedStep g curSt.outputs) (links, rest)).2
          (sched ++ [cur]) = some S := hS
      have hcurS : cur ∈ sched ++ [cur] :=
        List.mem_append_right _ (List.mem_singleton.2 rfl)
      have hfold := schedFold_inv g hwf cur curSt hn (sched ++ [cur]) hcurS
        deps (links, rest) h1
        (fun i o ho => by
          rcases h2 i o ho with h | h
          · exact Or.inl h
          · exact Or.inr (List.mem_append_left _ h))
        (fun m hm => h3 m (List.mem_cons_of_mem _ hm))
      refine schedAux_order g hwf deps fuel _ _ _ S hS2
        hfold.1 hfold.2.1 hfold.2.2 ?_
      intro pre m post hsp st hst i hi o ho
      rcases concat_split hsp with ⟨post2, hL, _⟩ | ⟨rfl, rfl, rfl⟩
      · exact hord pre m post2 hL st hst i hi o ho
      · obtain ⟨st2, hst2, hroot⟩ := h3 m (List.mem_cons_self _ _)
        rw [hn] at hst2 hst
        rw [Option.some_inj] at hst2 hst
        subst hst2
        subst hst
        rcases h2 i o ho with h | h
        · exfalso
          unfold State.isRoot at hroot
          rw [List.all_eq_true] at hroot
          have := hroot i hi
          rw [Option.isNone_iff_eq_none] at this
          rw [h] at this
          exact Option.noConfusion this
        · exact h

theorem mem_schedPending0 {g : Graph T} {n m : Node}
    (h : m ∈ schedPending0 g n) :
    m ∈ g.dependencies n ∧
      ∃ st, lookupN g.nodes m = some st ∧ st.isRoot g.links = true := by
  obtain ⟨h1, h2⟩ := List.mem_filter.1 h
  refine ⟨h1, ?_⟩
  cases hst : lookupN g.nodes m with
  | none =>
    rw [hst] at h2
    exact absurd h2 (by simp)
  | some st =>
    rw [hst] at h2
    exact ⟨st, rfl, h2⟩

theorem getLast?_append_singleton (l : List α) (a : α) :
    (l ++ [a]).getLast? = some a :=
  List.getLast?_concat _

/-! ### Claim C1 -/

/-- C1 (counterexample): in `exCycle`, nodes `1` and `2` form a two-cycle
feeding node `0`; `dependencies(0) = [1, 2]` but `schedule(0) = [0]`, so the
schedule does not contain every element of the dependency set. -/
theorem claim_C1_counterexample :
    1 ∈ Graph.dependencies exCycle 0 ∧ 1 ∉ Graph.schedule exCycle 0 := by
  decide

/-- C1 (amended): `schedule(n)` always ends with `n`, and every element of
the sequence is either an element of `dependencies(n)` or `n` itself; but
dependencies that never become roots (nodes on or downstream of a cycle
inside the ancestor subgraph, or with several links from one supplier) are
omitted, so the sequence need not contain all of `dependencies(n)`. -/
theorem claim_C1 :
    ∀ (T : Type) (g : Graph T) (n : Node),
      (g.schedule n).getLast? = some n ∧
      ∀ m ∈ g.schedule n, m ∈ g.dependencies n ∨ m = n := by
  intro T g n
  constructor
  · exact getLast?_append_singleton _ _
  · intro m hm
    rcases List.mem_append.1 hm with hm | hm
    · unfold schedKahn at hm
      cases hS : scheduleAux g (g.dependencies n)
          (schedFuel g (g.dependencies n)) g.links (schedPending0 g n) [] with
      | none =>
        rw [hS] at hm
        simp at hm
      | some S0 =>
        rw [hS] at hm
        rcases schedAux_subset g (g.dependencies n) _ _ _ _ S0 hS
          (fun z hz => (mem_schedPending0 hz).1) m hm with h | h
        · exact Or.inl h
        · simp at h
    · exact Or.inr (List.mem_singleton.1 hm)

/-! ### Claim C5 -/

/-- C5 (counterexample): in `exCycle`, `1 ∈ dependencies(0)` and the
schedule is `[0]`; node `0` (the last element) has an input linked to one of
`1`'s outputs, yet `1` is not placed before it (it is not scheduled at
all), refuting the claimed topological-ordering property as stated. -/
theorem claim_C5_counterexample :
    ¬ (∀ d ∈ Graph.dependencies exCycle 0, ∀ pre m post,
        Graph.schedule exCycle 0 = pre ++ m :: post →
        (∃ st, lookupN exCycle.nodes m = some st ∧ ∃ i ∈ st.inputs,
          ∃ o, lookupL exCycle.links i = some o ∧ o.node = d) →
        d ∈ pre) := by
  intro h
  have h2 := h 1 (by decide) [] 0 [] rfl
    ⟨{ id := 0, state := 0, position := (0, 0),
       inputs := [{ node := 0, name := "in" }], outputs := [] }, rfl,
     { node := 0, name := "in" }, by decide,
     { node := 1, name := "out" }, by decide, rfl⟩
  simp at h2

/-- C5 (amended): on a well-formed graph the schedule ends with `n`, and
every element other than the final `n` appears strictly after all suppliers
of its linked inputs, which are themselves scheduled earlier; the final `n`
itself carries no such guarantee (its suppliers may be missing when a cycle
blocks them). -/
theorem claim_C5 :
    ∀ (T : Type) (g : Graph T) (n : Node), WellFormed g →
      (g.schedule n).getLast? = some n ∧
      (∀ pre m post, g.schedule n = pre ++ m :: post → post ≠ [] →
        ∀ st, lookupN g.nodes m = some st → ∀ i ∈ st.inputs, ∀ o,
          lookupL g.links i = some o → o.node ∈ pre) := by
  intro T g n hwf
  refine ⟨getLast?_append_singleton _ _, ?_⟩
  intro pre m post hsp hpost st hst i hi o ho
  unfold Graph.schedule at hsp
  rcases concat_split hsp with ⟨post2, hL, _⟩ | ⟨_, _, rfl⟩
  · unfold schedKahn at hL
    cases hS : scheduleAux g (g.dependencies n)
        (schedFuel g (g.dependencies n)) g.links (schedPending0 g n) [] with
    | none =>
      rw [hS] at hL
      simp at hL
    | some S0 =>
      rw [hS] at hL
      refine schedAux_order g hwf (g.dependencies n) _ _ _ _ S0 hS
        (fun l hl => hl) (fun i2 o2 ho2 => Or.inl ho2)
        (fun z hz => (mem_schedPending0 hz).2)
        (fun pre2 m2 post3 hc => by simp at hc)
        pre m post2 hL st hst i hi o ho
  · exact absurd rfl hpost

theorem claim_C5_witness :
    WellFormed exDiamond ∧
    (Graph.schedule exDiamond 1).getLast? = some 1 ∧
    (∀ pre m post, Graph.schedule exDiamond 1 = pre ++ m :: post →
      post ≠ [] → ∀ st, lookupN exDiamond.nodes m = some st →
      ∀ i ∈ st.inputs, ∀ o, lookupL exDiamond.links i = some o →
        o.node ∈ pre) := by
  have h := claim_C5 Nat exDiamond 1 (by decide)
  exact ⟨by decide, h.1, h.2⟩

/-! ### Frame properties of evaluation -/

theorem lookupV_foldl_removeV :
    ∀ (outs : List OutputId) (v : Values) {K : OutputId},
      (∀ o ∈ outs, o ≠ K) → lookupV (outs.foldl removeV v) K = lookupV v K
  | [], _, _, _ => rfl
  | o :: outs, v, K, h => by
    simp only [List.foldl]
    rw [lookupV_foldl_removeV outs (removeV v o)
      fun o2 ho2 => h o2 (List.mem_cons_of_mem _ ho2)]
    show lookupA (removeA v o) K = lookupA v K
    exact lookupA_removeA_ne v fun hc => h o (List.mem_cons_self _ _) hc.symm

theorem keys_updateN :
    ∀ (nodes : List (Node × State T)) (n : Node) (st : State T),
      (updateN nodes n st).map Prod.fst = nodes.map Prod.fst
  | [], _, _ => rfl
  | p :: ps, n, st => by
    by_cases hp : p.1 = n
    · simp only [updateN, List.map_cons, if_pos hp, List.map_map]
      rw [hp]
      congr 1
      rw [← List.map_map]
      exact keys_updateN ps n st
    · simp only [updateN, List.map_cons, if_neg hp]
      congr 1
      exact keys_updateN ps n st

theorem mem_updateN :
    ∀ {nodes : List (Node × State T)} {n : Node} {st : State T}
      {p : Node × State T}, p ∈ updateN nodes n st → p ∈ nodes ∨ p = (n, st)
  | [], _, _, _, h => by simp [updateN] at h
  | q :: qs, n, st, p, h => by
    simp only [updateN, List.map_cons] at h
    rcases List.mem_cons.1 h with h | h
    · by_cases hq : q.1 = n
      · rw [if_pos hq] at h
        exact Or.inr h
      · rw [if_neg hq] at h
        exact Or.inl (h ▸ List.mem_cons_self _ _)
    · rcases mem_updateN h with h | h
      · exact Or.inl (List.mem_cons_of_mem _ h)
      · exact Or.inr h

theorem evaluateNode_entry (g : Graph T) (x m : Node) {st' : State T}
    (h : lookupN (evaluateNode g x).nodes m = some st') :
    ∃ st, lookupN g.nodes m = some st ∧ st'.id = st.id ∧
      st'.inputs = st.inputs ∧ st'.outputs = st.outputs ∧
      st'.position = st.position := by
  unfold evaluateNode at h
  cases hx : lookupN g.nodes x with
  | none =>
    rw [hx] at h
    exact ⟨st', h, rfl, rfl, rfl, rfl⟩
  | some st0 =>
    rw [hx] at h
    by_cases hmx : m = x
    · subst hmx
      have h2 : lookupN (updateN g.nodes m
          { st0 with state := (g.evaluate st0.state
            { links := g.links,
              values := st0.outputs.foldl removeV g.values }).1 }) m =
          some { st0 with state := (g.evaluate st0.state
            { links := g.links,
              values := st0.outputs.foldl removeV g.values }).1 } :=
        lookupN_updateN_self g.nodes _ st0 hx
      rw [h2] at h
      rw [Option.some_inj] at h
      subst h
      exact ⟨st0, hx, rfl, rfl, rfl, rfl⟩
    · rw [lookupN_updateN_ne g.nodes _ hmx] at h
      exact ⟨st', h, rfl, rfl, rfl, rfl⟩

theorem evaluateNode_wf (g : Graph T) (x : Node) (hwf : WellFormed g) :
    WellFormed (evaluateNode g x) := by
  unfold evaluateNode
  cases hx : lookupN g.nodes x with
  | none => exact hwf
  | some st0 =>
    obtain ⟨hkeys, hlinks, hprops⟩ := hwf
    refine ⟨?_, hlinks, ?_⟩
    · rw [keys_updateN]
      exact hkeys
    · intro p hp
      rcases mem_updateN hp with hp2 | hp2
      · exact hprops p hp2
      · have h0 := hprops (x, st0) (lookupA_mem hx)
        rw [hp2]
        exact ⟨h0.1, h0.2.1, h0.2.2.1, h0.2.2.2⟩

theorem evaluateNode_ownerReg (g : Graph T) (x : Node) {owner : T → Node}
    (hreg : OwnerReg g owner) (hcb : CbOwner g.evaluate owner) :
    OwnerReg (evaluateNode g x) owner := by
  intro m st' h
  unfold evaluateNode at h
  cases hx : lookupN g.nodes x with
  | none =>
    rw [hx] at h
    exact hreg m st' h
  | some st0 =>
    rw [hx] at h
    by_cases hmx : m = x
    · subst hmx
      rw [lookupN_updateN_self g.nodes _ st0 hx] at h
      rw [Option.some_inj] at h
      subst h
      show owner ((g.evaluate st0.state _).1) = m
      rw [hcb]
      exact hreg m st0 hx
    · rw [lookupN_updateN_ne g.nodes _ hmx] at h
      exact hreg m st' h

theorem evaluateNode_frame (g : Graph T) (x : Node) (K : OutputId)
    {owner : T → Node} (hwf : WellFormed g) (hreg : OwnerReg g owner)
    (hcb : CbFrame g.evaluate owner) (hx : x ≠ K.node) :
    lookupV (evaluateNode g x).values K = lookupV g.values K := by
  unfold evaluateNode
  cases hlx : lookupN g.nodes x with
  | none => rfl
  | some st0 =>
    have howner : owner st0.state = x := hreg x st0 hlx
    have hout : ∀ o ∈ st0.outputs, o ≠ K := by
      intro o ho hc
      have hon := (hwf.2.2 (x, st0) (lookupA_mem hlx)).2.2.2 o ho
      rw [hc] at hon
      exact hx hon.symm
    show lookupV (g.evaluate st0.state
      { links := g.links, values := st0.outputs.foldl removeV g.values }).2 K =
        lookupV g.values K
    rw [hcb st0.state _ K (by rw [howner]; exact fun hc => hx hc.symm)]
    exact lookupV_foldl_removeV st0.outputs g.values hout

theorem evalFold_wf :
    ∀ (tr : List Node) (g : Graph T), WellFormed g →
      WellFormed (tr.foldl evaluateNode g)
  | [], _, h => h
  | x :: tr, g, h => evalFold_wf tr (evaluateNode g x) (evaluateNode_wf g x h)

theorem evalFold_ownerReg {owner : T → Node} :
    ∀ (tr : List Node) (g : Graph T), OwnerReg g owner →
      CbOwner g.evaluate owner → OwnerReg (tr.foldl evaluateNode g) owner
  | [], _, h, _ => h
  | x :: tr, g, h, hcb =>
    evalFold_ownerReg tr (evaluateNode g x)
      (evaluateNode_ownerReg g x h hcb)
      (by rw [evaluateNode_evaluate]; exact hcb)

theorem evalFold_frame {owner : T → Node} :
    ∀ (tr : List Node) (g : Graph T) (K : OutputId), WellFormed g →
      OwnerReg g owner → CbOwner g.evaluate owner →
      CbFrame g.evaluate owner → (∀ x ∈ tr, x ≠ K.node) →
      lookupV (tr.foldl evaluateNode g).values K = lookupV g.values K
  | [], _, _, _, _, _, _, _ => rfl
  | x :: tr, g, K, hwf, hreg, hco, hcf, hne => by
    simp only [List.foldl]
    rw [evalFold_frame tr (evaluateNode g x) K
      (evaluateNode_wf g x hwf)
      (evaluateNode_ownerReg g x hreg hco)
      (by rw [evaluateNode_evaluate]; exact hco)
      (by rw [evaluateNode_evaluate]; exact hcf)
      (fun y hy => hne y (List.mem_cons_of_mem _ hy))]
    exact evaluateNode_frame g x K hwf hreg hcf
      (hne x (List.mem_cons_self _ _))

theorem exists_last_occurrence [DecidableEq α] {a : α} :
    ∀ {l : List α}, a ∈ l → ∃ t1 t2, l = t1 ++ a :: t2 ∧ a ∉ t2
  | [], h => absurd h (by simp)
  | x :: l, h => by
    by_cases hal : a ∈ l
    · obtain ⟨t1, t2, rfl, h2⟩ := exists_last_occurrence hal
      exact ⟨x :: t1, t2, rfl, h2⟩
    · rcases List.mem_cons.1 h with rfl | h
      · exact ⟨[], l, rfl, hal⟩
      · exact absurd h hal

/-! ### Claim C10 -/

theorem traceAux_reach (links : Links) (origin : Node) :
    ∀ (fuel : Nat) (pending visited tr : List Node),
      traceAux links fuel pending visited = some tr →
      (∀ p ∈ pending, Relation.ReflTransGen (fstep links) origin p) →
      ∀ x ∈ tr, Relation.ReflTransGen (fstep links) origin x
  | 0, pending, visited, tr, htr, _ => by
    by_cases h : pending.isEmpty <;> simp [traceAux, h] at htr
    subst htr
    simp
  | fuel + 1, [], visited, tr, htr, _ => by
    simp [traceAux] at htr
    subst htr
    simp
  | fuel + 1, y :: rest, visited, tr, htr, hp => by
    simp only [traceAux, Option.map_eq_some'] at htr
    obtain ⟨tr1, htr1, rfl⟩ := htr
    intro x hx
    rcases List.mem_cons.1 hx with rfl | hx
    · exact hp x (List.mem_cons_self _ _)
    · refine traceAux_reach links origin fuel _ _ tr1 htr1 ?_ x hx
      intro p hpp
      rcases pushPending_mem _ _ _ hpp with h | ⟨h1, _, _⟩
      · exact hp p (List.mem_cons_of_mem _ h)
      · rcases mem_dependantsOf.1 h1 with ⟨l, hl, h2, h3⟩
        exact Relation.ReflTransGen.tail (hp y (List.mem_cons_self _ _))
          ⟨l, hl, h2, h3⟩

/-- C10: `link(i, o)` roots its invalidation pass at the node owning the
receiving input `i` (definitionally), and when the node owning `o` is not
reachable forward (through the updated link table) from `i`'s node, it is
never popped by the pass and — for callbacks writing only their own node's
outputs — every cached value owned by `o`'s node is unchanged. -/
theorem claim_C10 :
    ∀ (T : Type) (g : Graph T) (i : InputId) (o : OutputId)
      (owner : T → Node), WellFormed g → OwnerReg g owner →
      CbOwner g.evaluate owner → CbFrame g.evaluate owner →
      g.link i o =
        Graph.invalidate { g with links := insertL g.links i o } i.node ∧
      (¬ Relation.ReflTransGen (fstep (insertL g.links i o)) i.node o.node →
        o.node ∉ invTrace { g with links := insertL g.links i o } i.node ∧
        ∀ K : OutputId, K.node = o.node →
          lookupV (g.link i o).values K = lookupV g.values K) := by
  intro T g i o owner hwf hreg hco hcf
  refine ⟨rfl, ?_⟩
  intro hreach
  have hwf1 : WellFormed { g with links := insertL g.links i o } :=
    ⟨hwf.1, keys_nodup_insertA i o hwf.2.1, hwf.2.2⟩
  have hnotin : o.node ∉
      invTrace { g with links := insertL g.links i o } i.node := by
    rw [invTrace_eq]
    cases htr : traceAux (insertL g.links i o)
        (invFuel { g with links := insertL g.links i o }) [i.node] [] with
    | none => simp
    | some tr =>
      intro hmem
      refine hreach (traceAux_reach (insertL g.links i o) i.node _ _ _ tr htr
        (fun p hp => by
          rcases List.mem_singleton.1 hp with rfl
          exact Relation.ReflTransGen.refl) o.node ?_)
      simpa using hmem
  refine ⟨hnotin, ?_⟩
  intro K hK
  show lookupV (Graph.invalidate
    { g with links := insertL g.links i o } i.node).values K = _
  rw [invalidate_eq_fold]
  rw [invTrace_eq] at hnotin
  cases htr : traceAux (insertL g.links i o)
      (invFuel { g with links := insertL g.links i o }) [i.node] [] with
  | none => rfl
  | some tr =>
    rw [htr] at hnotin
    exact evalFold_frame tr { g with links := insertL g.links i o } K hwf1
      hreg hco hcf
      (fun x hx hc => by
        rw [hc, hK] at hx
        exact hnotin (by simpa using hx))

/-- C10 (witness): in `gOwned`, linking input `(0, in)` to output `(5, out)`
roots the pass at node `0`; node `5` is unreachable from node `0`, is never
popped, and its cached values are untouched. -/
theorem claim_C10_witness :
    WellFormed gOwned ∧
    ¬ Relation.ReflTransGen (fstep (insertL gOwned.links iC10 oC10)) 0 5 ∧
    ((5 : Node) ∉ invTrace
        { gOwned with links := insertL gOwned.links iC10 oC10 } 0 ∧
      ∀ K : OutputId, K.node = 5 →
        lookupV (gOwned.link iC10 oC10).values K = lookupV gOwned.values K) := by
  have hwf : WellFormed gOwned := by decide
  have hreg : OwnerReg gOwned (fun t => t) := by
    intro m st h
    by_cases hm : m = 0
    · subst hm
      have hst : { id := 0, state := 0, position := ((0 : Int), (0 : Int)),
                    inputs := [{ node := 0, name := "in" }],
                    outputs := ([] : List OutputId) } = st := by
        simpa [gOwned, lookupN, lookupA] using h
      rw [← hst]
    · simp [gOwned, lookupN, lookupA, Ne.symm hm] at h
  have hnr : ¬ Relation.ReflTransGen
      (fstep (insertL gOwned.links iC10 oC10)) 0 5 := by
    intro h
    rcases Relation.ReflTransGen.cases_head h with h | ⟨c, hstep, _⟩
    · exact absurd h (by decide)
    · rcases hstep with ⟨l, hl, h2, _⟩
      have hle : l = (iC10, oC10) := by
        simpa [gOwned, insertL, insertA, removeA] using hl
      rw [hle] at h2
      exact absurd h2 (by decide)
  have h := claim_C10 Node gOwned iC10 oC10 (fun t => t) hwf hreg
    (fun _ _ => rfl) (fun _ _ _ _ => rfl)
  exact ⟨hwf, hnr, (h.2 hnr).1, (h.2 hnr).2⟩

/-! ### Claim C3 -/

theorem evalFold_entry :
    ∀ (tr : List Node) (g : Graph T) (m : Node) {st' : State T},
      lookupN (tr.foldl evaluateNode g).nodes m = some st' →
      ∃ st, lookupN g.nodes m = some st ∧ st'.id = st.id ∧
        st'.inputs = st.inputs ∧ st'.outputs = st.outputs ∧
        st'.position = st.position
  | [], _, _, _, h => ⟨_, h, rfl, rfl, rfl, rfl⟩
  | x :: tr, g, m, st', h => by
    simp only [List.foldl] at h
    obtain ⟨st2, h2, e1, e2, e3, e4⟩ := evalFold_entry tr (evaluateNode g x) m h
    obtain ⟨st3, h3, f1, f2, f3, f4⟩ := evaluateNode_entry g x m h2
    exact ⟨st3, h3, e1.trans f1, e2.trans f2, e3.trans f3, e4.trans f4⟩

theorem invalidate_entry (g : Graph T) (n m : Node) {st' : State T}
    (h : lookupN (g.invalidate n).nodes m = some st') :
    ∃ st, lookupN g.nodes m = some st ∧ st'.id = st.id ∧
      st'.inputs = st.inputs ∧ st'.outputs = st.outputs ∧
      st'.position = st.position := by
  rw [invalidate_eq_fold] at h
  cases htr : traceAux g.links (invFuel g) [n] [] with
  | none =>
    rw [htr] at h
    exact ⟨st', h, rfl, rfl, rfl, rfl⟩
  | some tr =>
    rw [htr] at h
    exact evalFold_entry tr g m h

theorem invalidate_lookupN_isSome (g : Graph T) (n m : Node) :
    (lookupN (g.invalidate n).nodes m).isSome = (lookupN g.nodes m).isSome := by
  rw [invalidate_eq_fold]
  cases traceAux g.links (invFuel g) [n] [] with
  | none => rfl
  | some tr => exact foldl_evaluateNode_lookupN_isSome tr g m

theorem invalidate_wf (g : Graph T) (n : Node) (hwf : WellFormed g) :
    WellFormed (g.invalidate n) := by
  rw [invalidate_eq_fold]
  cases traceAux g.links (invFuel g) [n] [] with
  | none => exact hwf
  | some tr => exact evalFold_wf tr g hwf

theorem invalidate_ownerReg (g : Graph T) (n : Node) {owner : T → Node}
    (hreg : OwnerReg g owner) (hco : CbOwner g.evaluate owner) :
    OwnerReg (g.invalidate n) owner := by
  rw [invalidate_eq_fold]
  cases traceAux g.links (invFuel g) [n] [] with
  | none => exact hreg
  | some tr => exact evalFold_ownerReg tr g hreg hco

theorem updateState_wf (g : Graph T) (m : Node) (st : State T) (t' : T)
    (v' : Values) (hwf : WellFormed g) (hm : lookupN g.nodes m = some st) :
    WellFormed { g with nodes := updateN g.nodes m { st with state := t' },
                        values := v' } := by
  obtain ⟨hkeys, hlinks, hprops⟩ := hwf
  refine ⟨?_, hlinks, ?_⟩
  · show ((updateN g.nodes m _).map Prod.fst).Nodup
    rw [keys_updateN]
    exact hkeys
  · intro p hp
    rcases mem_updateN hp with hp2 | hp2
    · exact hprops p hp2
    · have h0 := hprops (m, st) (lookupA_mem hm)
      rw [hp2]
      exact ⟨h0.1, h0.2.1, h0.2.2.1, h0.2.2.2⟩

theorem updateState_ownerReg (g : Graph T) (m : Node) (st : State T) (t' : T)
    (v' : Values) {owner : T → Node} (hreg : OwnerReg g owner)
    (hm : lookupN g.nodes m = some st) (ht : owner t' = m) :
    OwnerReg ({ g with nodes := updateN g.nodes m { st with state := t' },
                       values := v' } : Graph T) owner := by
  intro m2 st2 h2
  by_cases hmm : m2 = m
  · subst hmm
    rw [show lookupN (updateN g.nodes m2 { st with state := t' }) m2 =
        some { st with state := t' } from lookupN_updateN_self g.nodes _ st hm]
      at h2
    rw [Option.some_inj] at h2
    subst h2
    exact ht
  · rw [show lookupN (updateN g.nodes m { st with state := t' }) m2 =
        lookupN g.nodes m2 from lookupN_updateN_ne g.nodes _ hmm] at h2
    exact hreg m2 st2 h2

theorem invTrace_cons (g : Graph T) (n : Node) :
    ∃ tr', invTrace g n = n :: tr' := by
  obtain ⟨r, hr⟩ := Option.isSome_iff_exists.1 (traceAux_total g n)
  have hr2 := hr
  simp only [traceAux, Option.map_eq_some'] at hr2
  obtain ⟨tr1, _, rfl⟩ := hr2
  refine ⟨tr1, ?_⟩
  rw [invTrace_eq, hr]
  rfl

/-- C3: with a callback that writes only the evaluated node's own declared
outputs (and keeps each state's node identity), after `link(i, o)` and an
`update` of the node owning `o`, `input(i)` returns exactly the value that
the last evaluation of `o`'s node during the update's invalidation pass
committed for `o` (and hence nothing when that evaluation declined). -/
theorem claim_C3 :
    ∀ (T : Type) (g : Graph T) (i : InputId) (o : OutputId)
      (owner : T → Node) (O : Type) [Inhabited O]
      (f : T → Data → T × Values × O) (sto : State T),
      WellFormed g → OwnerReg g owner → CbOwner g.evaluate owner →
      CbFrame g.evaluate owner →
      (∀ t d, owner (f t d).1 = owner t) →
      lookupN g.nodes o.node = some sto → o ∈ sto.outputs →
      ∃ t1 t2,
        invTrace (updateBase (g.link i o) o.node f).1 o.node =
          t1 ++ o.node :: t2 ∧ o.node ∉ t2 ∧
        ((g.link i o).update o.node f).1.input i =
          (lookupV (evaluateNode
            (t1.foldl evaluateNode (updateBase (g.link i o) o.node f).1)
            o.node).values o).bind id := by
  intro T g i o owner O hO f sto hwf hreg hco hcf hf hnode hdecl
  -- the graph after the link call
  have hwfL : WellFormed (g.link i o) := by
    unfold Graph.link
    exact invalidate_wf _ _ ⟨hwf.1, keys_nodup_insertA i o hwf.2.1, hwf.2.2⟩
  have hregL : OwnerReg (g.link i o) owner := by
    unfold Graph.link
    exact invalidate_ownerReg _ _ hreg hco
  have hevL : (g.link i o).evaluate = g.evaluate := by
    unfold Graph.link
    rw [invalidate_evaluate]
  -- the registry entry of o.node survives the link call
  have hsomeL : (lookupN (g.link i o).nodes o.node).isSome = true := by
    unfold Graph.link
    rw [invalidate_lookupN_isSome]
    show (lookupN g.nodes o.node).isSome = true
    rw [hnode]
    rfl
  obtain ⟨st1, hst1⟩ := Option.isSome_iff_exists.1 hsomeL
  have hout1 : o ∈ st1.outputs := by
    have := invalidate_entry _ i.node (m := o.node)
      (show lookupN ((Graph.invalidate
        { g with links := insertL g.links i o } i.node)).nodes o.node =
          some st1 from hst1)
    obtain ⟨st0, hst0, _, _, e3, _⟩ := this
    have : st0 = sto := by
      rw [show lookupN ({ g with links := insertL g.links i o } :
        Graph T).nodes o.node = lookupN g.nodes o.node from rfl, hnode]
        at hst0
      exact (Option.some_inj.1 hst0).symm
    rw [e3, this]
    exact hdecl
  -- the graph after f ran (before the update's invalidation)
  have hbase : (updateBase (g.link i o) o.node f).1 =
      { (g.link i o) with
        nodes := updateN (g.link i o).nodes o.node
          { st1 with state := (f st1.state
            { links := (g.link i o).links, values := (g.link i o).values }).1 },
        values := (f st1.state
          { links := (g.link i o).links,
            values := (g.link i o).values }).2.1 } := by
    unfold updateBase
    rw [hst1]
  have hwfB : WellFormed (updateBase (g.link i o) o.node f).1 := by
    rw [hbase]
    exact updateState_wf _ _ _ _ _ hwfL hst1
  have hregB : OwnerReg (updateBase (g.link i o) o.node f).1 owner := by
    rw [hbase]
    refine updateState_ownerReg _ _ _ _ _ hregL hst1 ?_
    rw [hf]
    exact hregL o.node st1 hst1
  have hevB : (updateBase (g.link i o) o.node f).1.evaluate = g.evaluate := by
    rw [hbase]
    exact hevL
  have hlinksB : (updateBase (g.link i o) o.node f).1.links =
      insertL g.links i o := by
    rw [updateBase_links]
    exact link_links g i o
  have hsomeB : lookupN (updateBase (g.link i o) o.node f).1.nodes o.node =
      some { st1 with state := (f st1.state
        { links := (g.link i o).links, values := (g.link i o).values }).1 } := by
    rw [hbase]
    exact lookupN_updateN_self _ _ st1 hst1
  have houtB : o ∈ ({ st1 with state := (f st1.state
      { links := (g.link i o).links,
        values := (g.link i o).values }).1 } : State T).outputs := hout1
  -- the update runs the invalidation on the base graph
  have hupd : ((g.link i o).update o.node f).1 =
      ((updateBase (g.link i o) o.node f).1).invalidate o.node := by
    unfold Graph.update
    rw [hst1]
  -- split the pass's trace at the last evaluation of o.node
  obtain ⟨tr', htr'⟩ := invTrace_cons (updateBase (g.link i o) o.node f).1 o.node
  have hmem : o.node ∈ invTrace (updateBase (g.link i o) o.node f).1 o.node := by
    rw [htr']
    exact List.mem_cons_self _ _
  obtain ⟨t1, t2, hsplit, hlast⟩ := exists_last_occurrence hmem
  refine ⟨t1, t2, hsplit, hlast, ?_⟩
  -- read the final cache through the link installed for i
  have htrS : traceAux (updateBase (g.link i o) o.node f).1.links
      (invFuel (updateBase (g.link i o) o.node f).1) [o.node] [] =
      some (t1 ++ o.node :: t2) := by
    have := invTrace_eq (updateBase (g.link i o) o.node f).1 o.node
    rw [hsplit] at this
    cases htr2 : traceAux (updateBase (g.link i o) o.node f).1.links
        (invFuel (updateBase (g.link i o) o.node f).1) [o.node] [] with
    | none =>
      exfalso
      have hs := traceAux_total (updateBase (g.link i o) o.node f).1 o.node
      rw [htr2] at hs
      exact Bool.noConfusion hs
    | some tr2 =>
      rw [htr2] at this
      rw [this]
      rfl
  have hvals : ((g.link i o).update o.node f).1.values =
      ((t1 ++ o.node :: t2).foldl evaluateNode
        (updateBase (g.link i o) o.node f).1).values := by
    rw [hupd, invalidate_eq_fold, htrS]
  have hfold2 : (t1 ++ o.node :: t2).foldl evaluateNode
      (updateBase (g.link i o) o.node f).1 =
      t2.foldl evaluateNode (evaluateNode
        (t1.foldl evaluateNode (updateBase (g.link i o) o.node f).1) o.node) := by
    rw [List.foldl_append]
    rfl
  -- frame: the evaluations after the last one of o.node do not touch o
  have hwfMid : WellFormed (evaluateNode
      (t1.foldl evaluateNode (updateBase (g.link i o) o.node f).1) o.node) :=
    evaluateNode_wf _ _ (evalFold_wf t1 _ hwfB)
  have hregMid : OwnerReg (evaluateNode
      (t1.foldl evaluateNode (updateBase (g.link i o) o.node f).1) o.node)
      owner := by
    refine evaluateNode_ownerReg _ _ (evalFold_ownerReg t1 _ hregB ?_) ?_
    · rw [hevB]
      exact hco
    · rw [foldl_evaluateNode_evaluate, hevB]
      exact hco
  have hevMid : (evaluateNode
      (t1.foldl evaluateNode (updateBase (g.link i o) o.node f).1)
        o.node).evaluate = g.evaluate := by
    rw [evaluateNode_evaluate, foldl_evaluateNode_evaluate, hevB]
  have hframe : lookupV ((t1 ++ o.node :: t2).foldl evaluateNode
      (updateBase (g.link i o) o.node f).1).values o =
      lookupV (evaluateNode
        (t1.foldl evaluateNode (updateBase (g.link i o) o.node f).1)
        o.node).values o := by
    rw [hfold2]
    refine evalFold_frame t2 _ o hwfMid hregMid ?_ ?_ ?_
    · rw [hevMid]
      exact hco
    · rw [hevMid]
      exact hcf
    · intro x hx hc
      exact hlast (hc ▸ hx)
  -- the input resolves through the installed link
  have hlinksU : ((g.link i o).update o.node f).1.links = insertL g.links i o := by
    rw [update_links, link_links]
  show (lookupL ((g.link i o).update o.node f).1.links i).bind
      (fun o2 => (lookupV ((g.link i o).update o.node f).1.values o2).bind id) = _
  rw [hlinksU]
  rw [show lookupL (insertL g.links i o) i = some o from
    lookupA_insertA_self g.links i o]
  rw [Option.some_bind]
  rw [hvals, hframe]

/-- C3 (witness): the amended propagation statement applied to `gC3`,
linking `(0, in)` to `(5, out)` and updating node `5` with the do-nothing
closure `fC3`. -/
theorem claim_C3_witness :
    WellFormed gC3 ∧
    lookupN gC3.nodes oC10.node = some
      { id := 5, state := 5, position := (0, 0), inputs := [],
        outputs := [{ node := 5, name := "out" }] } ∧
    (∃ t1 t2,
      invTrace (updateBase (gC3.link iC10 oC10) oC10.node fC3).1 oC10.node =
        t1 ++ oC10.node :: t2 ∧ oC10.node ∉ t2 ∧
      ((gC3.link iC10 oC10).update oC10.node fC3).1.input iC10 =
        (lookupV (evaluateNode
          (t1.foldl evaluateNode (updateBase (gC3.link iC10 oC10) oC10.node fC3).1)
          oC10.node).values oC10).bind id) := by
  have hreg : OwnerReg gC3 (fun t => t) := by
    intro m st h
    by_cases h0 : m = 0
    · subst h0
      have hst : { id := 0, state := 0, position := ((0 : Int), (0 : Int)),
                   inputs := [{ node := 0, name := "in" }],
                   outputs := ([] : List OutputId) } = st := by
        simpa [gC3, lookupN, lookupA] using h
      rw [← hst]
    · by_cases h5 : m = 5
      · subst h5
        have hst : { id := 5, state := 5, position := ((0 : Int), (0 : Int)),
                     inputs := ([] : List InputId),
                     outputs := [{ node := 5, name := "out" }] } = st := by
          simpa [gC3, lookupN, lookupA] using h
        rw [← hst]
      · simp [gC3, lookupN, lookupA, Ne.symm h0, Ne.symm h5] at h
  exact ⟨by decide, rfl,
    claim_C3 Node gC3 iC10 oC10 (fun t => t) Nat fC3 _ (by decide) hreg
      (fun _ _ => rfl) (fun _ _ _ _ => rfl) (fun _ _ => rfl) rfl (by decide)⟩

/-! ### Claim C9: value evolution under a state-pure callback -/

theorem updateN_not_mem :
    ∀ (nodes : List (Node × State T)) (m : Node) (st : State T),
      (∀ q ∈ nodes, q.1 ≠ m) → updateN nodes m st = nodes
  | [], _, _, _ => rfl
  | p :: ps, m, st, h => by
    simp only [updateN, List.map_cons, if_neg (h p (List.mem_cons_self _ _))]
    congr 1
    exact updateN_not_mem ps m st fun q hq => h q (List.mem_cons_of_mem _ hq)

theorem updateN_self_eq :
    ∀ (nodes : List (Node × State T)) (m : Node) (st : State T),
      (nodes.map Prod.fst).Nodup → lookupN nodes m = some st →
      updateN nodes m st = nodes
  | [], _, _, _, h => by simp [lookupN, lookupA] at h
  | p :: ps, m, st, hnd, h => by
    simp only [List.map_cons, List.nodup_cons] at hnd
    by_cases hp : p.1 = m
    · simp only [lookupN, lookupA, if_pos hp] at h
      rw [Option.some_inj] at h
      subst h
      simp only [updateN, List.map_cons, if_pos hp]
      congr 1
      · rw [← hp]
      · exact updateN_not_mem ps m p.2 fun q hq hc =>
          hnd.1 (List.mem_map.2 ⟨q, hq, by rw [hc, hp]⟩)
    · simp only [lookupN, lookupA, if_neg hp] at h
      simp only [updateN, List.map_cons, if_neg hp]
      congr 1
      exact updateN_self_eq ps m st hnd.2 h

theorem evaluateNode_none (g : Graph T) (x : Node)
    (h : lookupN g.nodes x = none) : evaluateNode g x = g := by
  unfold evaluateNode
  rw [h]

theorem evaluateNode_some (g : Graph T) (x : Node) (st : State T)
    (h : lookupN g.nodes x = some st) :
    evaluateNode g x =
      { g with
        nodes := updateN g.nodes x { st with state := (g.evaluate st.state
          { links := g.links,
            values := st.outputs.foldl removeV g.values }).1 },
        values := (g.evaluate st.state
          { links := g.links,
            values := st.outputs.foldl removeV g.values }).2 } := by
  unfold evaluateNode
  rw [h]

theorem stepVals_none (ev : T → Data → T × Values) (links : Links)
    (nodes : List (Node × State T)) (v : Values) (x : Node)
    (h : lookupN nodes x = none) : stepVals ev links nodes v x = v := by
  unfold stepVals
  rw [h]

theorem stepVals_some (ev : T → Data → T × Values) (links : Links)
    (nodes : List (Node × State T)) (v : Values) (x : Node) (st : State T)
    (h : lookupN nodes x = some st) :
    stepVals ev links nodes v x =
      (ev st.state
        { links := links, values := st.outputs.foldl removeV v }).2 := by
  unfold stepVals
  rw [h]

theorem evaluateNode_pure (g : Graph T) (x : Node)
    (hpure : ∀ t d, (g.evaluate t d).1 = t)
    (hnd : (g.nodes.map Prod.fst).Nodup) :
    evaluateNode g x =
      { g with values := stepVals g.evaluate g.links g.nodes g.values x } := by
  cases hx : lookupN g.nodes x with
  | none =>
    rw [evaluateNode_none g x hx,
      stepVals_none g.evaluate g.links g.nodes g.values x hx]
  | some st =>
    rw [evaluateNode_some g x st hx,
      stepVals_some g.evaluate g.links g.nodes g.values x st hx]
    have h1 : { st with state := (g.evaluate st.state
        { links := g.links,
          values := st.outputs.foldl removeV g.values }).1 } = st := by
      rw [hpure]
    rw [h1, updateN_self_eq g.nodes x st hnd hx]

theorem evalFold_pure :
    ∀ (tr : List Node) (g : Graph T),
      (∀ t d, (g.evaluate t d).1 = t) →
      (g.nodes.map Prod.fst).Nodup →
      tr.foldl evaluateNode g =
        { g with values :=
            tr.foldl (stepVals g.evaluate g.links g.nodes) g.values }
  | [], _, _, _ => rfl
  | x :: tr, g, hpure, hnd => by
    simp only [List.foldl]
    rw [evaluateNode_pure g x hpure hnd]
    exact evalFold_pure tr _ hpure hnd

theorem invalidate_pure (g : Graph T) (n : Node)
    (hpure : ∀ t d, (g.evaluate t d).1 = t)
    (hnd : (g.nodes.map Prod.fst).Nodup) :
    g.invalidate n =
      { g with values :=
          (invTrace g n).foldl (stepVals g.evaluate g.links g.nodes) g.values } := by
  obtain ⟨r, hr⟩ := Option.isSome_iff_exists.1 (traceAux_total g n)
  rw [invalidate_eq_fold, invTrace_eq, hr]
  show r.foldl evaluateNode g = _
  exact evalFold_pure r g hpure hnd

theorem stepVals_eq (g : Graph T) (v : Values) (x : Node) :
    stepVals g.evaluate g.links g.nodes v x =
      (evaluateNode { g with values := v } x).values := by
  unfold stepVals evaluateNode
  cases lookupN g.nodes x <;> rfl

theorem lookupA_removeA_none [DecidableEq α] (m : List (α × β)) (j k : α)
    (h : lookupA m k = none) : lookupA (removeA m j) k = none := by
  by_cases hjk : k = j
  · subst hjk
    exact lookupA_removeA_self m k
  · rw [lookupA_removeA_ne m hjk]
    exact h

theorem lookupV_foldl_removeV_none :
    ∀ (outs : List OutputId) (v : Values) {K : OutputId},
      lookupV v K = none → lookupV (outs.foldl removeV v) K = none
  | [], _, _, h => h
  | o :: outs, v, K, h => by
    simp only [List.foldl]
    exact lookupV_foldl_removeV_none outs (removeV v o)
      (lookupA_removeA_none v o K h)

theorem lookupV_foldl_removeV_mem :
    ∀ (outs : List OutputId) (v : Values) {K : OutputId},
      K ∈ outs → lookupV (outs.foldl removeV v) K = none
  | [], _, _, h => by simp at h
  | o :: outs, v, K, h => by
    simp only [List.foldl]
    rcases List.mem_cons.1 h with rfl | h
    · exact lookupV_foldl_removeV_none outs (removeV v K)
        (lookupA_removeA_self v K)
    · exact lookupV_foldl_removeV_mem outs (removeV v o) h

theorem removed_congr (outs : List OutputId) (w1 w0 : Values) (K : OutputId)
    (h : lookupV w1 K = lookupV w0 K) :
    lookupV (outs.foldl removeV w1) K = lookupV (outs.foldl removeV w0) K := by
  by_cases hm : K ∈ outs
  · rw [lookupV_foldl_removeV_mem outs w1 hm, lookupV_foldl_removeV_mem outs w0 hm]
  · have hne : ∀ o ∈ outs, o ≠ K := fun o ho hc => hm (hc ▸ ho)
    rw [lookupV_foldl_removeV outs w1 hne, lookupV_foldl_removeV outs w0 hne]
    exact h

theorem stepVals_preserve (g : Graph T) {owner : T → Node}
    (decl : Node → List OutputId) (hwf : WellFormed g)
    (hreg : OwnerReg g owner) (hcf : CbFrame g.evaluate owner)
    (hcd : CbDecl g.evaluate owner decl)
    (hdecl : ∀ m st, lookupN g.nodes m = some st → st.outputs = decl m)
    (v : Values) (x : Node) (K : OutputId)
    (h : x ≠ K.node ∨ ∀ st, lookupN g.nodes K.node = some st → K ∉ st.outputs) :
    lookupV (stepVals g.evaluate g.links g.nodes v x) K = lookupV v K := by
  by_cases hxK : x = K.node
  · rcases h with h | h
    · exact absurd hxK h
    · subst hxK
      cases hlx : lookupN g.nodes K.node with
      | none => rw [stepVals_none g.evaluate g.links g.nodes v K.node hlx]
      | some st =>
        have hKout : K ∉ st.outputs := h st hlx
        have howner := hreg K.node st hlx
        rw [stepVals_some g.evaluate g.links g.nodes v K.node st hlx]
        rw [hcd st.state _ K howner.symm (by
          rw [howner, ← hdecl K.node st hlx]
          exact hKout)]
        exact lookupV_foldl_removeV st.outputs v
          fun o ho hc => hKout (hc ▸ ho)
  · rw [stepVals_eq]
    exact evaluateNode_frame { g with values := v } x K
      ⟨hwf.1, hwf.2.1, hwf.2.2⟩ hreg hcf hxK

theorem foldVals_preserve (g : Graph T) {owner : T → Node}
    (decl : Node → List OutputId) (hwf : WellFormed g)
    (hreg : OwnerReg g owner) (hcf : CbFrame g.evaluate owner)
    (hcd : CbDecl g.evaluate owner decl)
    (hdecl : ∀ m st, lookupN g.nodes m = some st → st.outputs = decl m) :
    ∀ (l : List Node) (v : Values) (K : OutputId),
      ((∀ x ∈ l, x ≠ K.node) ∨
        ∀ st, lookupN g.nodes K.node = some st → K ∉ st.outputs) →
      lookupV (l.foldl (stepVals g.evaluate g.links g.nodes) v) K = lookupV v K
  | [], _, _, _ => rfl
  | x :: l, v, K, h => by
    simp only [List.foldl]
    have hstep : lookupV (stepVals g.evaluate g.links g.nodes v x) K =
        lookupV v K := by
      refine stepVals_preserve g decl hwf hreg hcf hcd hdecl v x K ?_
      rcases h with h | h
      · exact Or.inl (h x (List.mem_cons_self _ _))
      · exact Or.inr h
    rw [← hstep]
    refine foldVals_preserve g decl hwf hreg hcf hcd hdecl l _ K ?_
    rcases h with h | h
    · exact Or.inl fun y hy => h y (List.mem_cons_of_mem _ hy)
    · exact Or.inr h

theorem take_succ_get :
    ∀ (l : List α) (k : Nat) (hk : k < l.length),
      l.take (k + 1) = l.take k ++ [l.get ⟨k, hk⟩]
  | a :: l, 0, _ => rfl
  | a :: l, k + 1, hk => by
    have hk2 : k < l.length := by
      simp only [List.length_cons] at hk
      omega
    rw [List.take_succ_cons, List.take_succ_cons, take_succ_get l k hk2]
    rfl

theorem c9_agree (g : Graph T) {owner : T → Node}
    (decl : Node → List OutputId) (hwf : WellFormed g)
    (hreg : OwnerReg g owner) (hcf : CbFrame g.evaluate owner)
    (hcd : CbDecl g.evaluate owner decl)
    (hreads : CbReads g.evaluate owner)
    (hdecl : ∀ m st, lookupN g.nodes m = some st → st.outputs = decl m)
    (tr : List Node) (Htopo : TraceTopo g.links tr) (v0 : Values) :
    ∀ (k : Nat), k ≤ tr.length → ∀ (K : OutputId),
      ((∀ (j : Nat) (hj : j < tr.length), k ≤ j → tr.get ⟨j, hj⟩ ≠ K.node) ∨
        (∀ st, lookupN g.nodes K.node = some st → K ∉ st.outputs)) →
      lookupV ((tr.take k).foldl (stepVals g.evaluate g.links g.nodes)
          (tr.foldl (stepVals g.evaluate g.links g.nodes) v0)) K =
        lookupV ((tr.take k).foldl (stepVals g.evaluate g.links g.nodes) v0) K
  | 0, _, K, h => by
    simp only [List.take_zero, List.foldl_nil]
    rcases h with h | h
    · refine foldVals_preserve g decl hwf hreg hcf hcd hdecl tr v0 K (Or.inl ?_)
      intro x hx
      obtain ⟨i, hi⟩ := List.get_of_mem hx
      rw [← hi]
      exact h i.1 i.2 (Nat.zero_le _)
    · exact foldVals_preserve g decl hwf hreg hcf hcd hdecl tr v0 K (Or.inr h)
  | k + 1, hk1, K, h => by
    have hk2 : k < tr.length := hk1
    rw [take_succ_get tr k hk2, List.foldl_append, List.foldl_append]
    simp only [List.foldl_cons, List.foldl_nil]
    by_cases hR : ∀ st, lookupN g.nodes K.node = some st → K ∉ st.outputs
    · rw [stepVals_preserve g decl hwf hreg hcf hcd hdecl _ _ K (Or.inr hR),
        stepVals_preserve g decl hwf hreg hcf hcd hdecl _ _ K (Or.inr hR)]
      exact c9_agree g decl hwf hreg hcf hcd hreads hdecl tr Htopo v0 k
        (Nat.le_of_lt hk2) K (Or.inr hR)
    · rcases h with hL | hR2
      · by_cases hxK : tr.get ⟨k, hk2⟩ = K.node
        · push_neg at hR
          obtain ⟨st, hst, _hKst⟩ := hR
          have howner : owner st.state = K.node := hreg K.node st hst
          have hlookup : lookupN g.nodes (tr.get ⟨k, hk2⟩) = some st := by
            rw [hxK]
            exact hst
          rw [stepVals_some g.evaluate g.links g.nodes _ _ st hlookup,
            stepVals_some g.evaluate g.links g.nodes _ _ st hlookup]
          refine hreads st.state g.links _ _ ?_ ?_ K howner.symm
          · intro i hi o hlink
            refine removed_congr st.outputs _ _ o ?_
            refine c9_agree g decl hwf hreg hcf hcd hreads hdecl tr Htopo v0 k
              (Nat.le_of_lt hk2) o (Or.inl ?_)
            intro j hj hkj hgj
            have hf : fstep g.links (tr.get ⟨j, hj⟩) (tr.get ⟨k, hk2⟩) :=
              ⟨(i, o), lookupA_mem hlink, hgj.symm, by
                rw [hi, howner]
                exact hxK.symm⟩
            have hjk : j < k := Fin.mk_lt_mk.mp (Htopo ⟨j, hj⟩ ⟨k, hk2⟩ hf)
            omega
          · intro K2 hK2
            by_cases hm : K2 ∈ st.outputs
            · rw [lookupV_foldl_removeV_mem st.outputs _ hm,
                lookupV_foldl_removeV_mem st.outputs _ hm]
            · refine removed_congr st.outputs _ _ K2 ?_
              refine c9_agree g decl hwf hreg hcf hcd hreads hdecl tr Htopo v0 k
                (Nat.le_of_lt hk2) K2 (Or.inr ?_)
              intro st2 hst2
              rw [hK2, howner] at hst2
              rw [hst] at hst2
              exact (Option.some.inj hst2) ▸ hm
        · rw [stepVals_preserve g decl hwf hreg hcf hcd hdecl _ _ K (Or.inl hxK),
            stepVals_preserve g decl hwf hreg hcf hcd hdecl _ _ K (Or.inl hxK)]
          refine c9_agree g decl hwf hreg hcf hcd hreads hdecl tr Htopo v0 k
            (Nat.le_of_lt hk2) K (Or.inl ?_)
          intro j hj hkj
          rcases Nat.eq_or_lt_of_le hkj with heq | hlt
          · subst heq
            exact hxK
          · exact hL j hj hlt
      · exact absurd hR2 hR

/-- C9 (corrected): calling `invalidate(n)` twice in a row yields, after the
second call, the same cached value for every output as after the first call
— provided the callback is state-pure, writes only its own declared
outputs, reads only through its own linked inputs, and the breadth-first
evaluation order of the pass is topologically sorted with respect to the
link table.  Without the last proviso the claim is false
(`claim_C9_counterexample`). -/
theorem claim_C9 (g : Graph T) (n : Node) {owner : T → Node}
    (decl : Node → List OutputId) (hwf : WellFormed g)
    (hpure : ∀ t d, (g.evaluate t d).1 = t)
    (hreg : OwnerReg g owner) (hcf : CbFrame g.evaluate owner)
    (hcd : CbDecl g.evaluate owner decl)
    (hreads : CbReads g.evaluate owner)
    (hdecl : ∀ m st, lookupN g.nodes m = some st → st.outputs = decl m)
    (Htopo : TraceTopo g.links (invTrace g n)) (K : OutputId) :
    lookupV ((g.invalidate n).invalidate n).values K =
      lookupV (g.invalidate n).values K := by
  have hnd : (g.nodes.map Prod.fst).Nodup := hwf.1
  have h1 := invalidate_pure g n hpure hnd
  have hpure2 : ∀ t d, ((g.invalidate n).evaluate t d).1 = t := by
    rw [h1]
    exact hpure
  have hnd2 : ((g.invalidate n).nodes.map Prod.fst).Nodup := by
    rw [h1]
    exact hnd
  have htr : invTrace (g.invalidate n) n = invTrace g n := by
    rw [invTrace_eq, invTrace_eq, h1]
    rfl
  have h2 := invalidate_pure (g.invalidate n) n hpure2 hnd2
  rw [h2, htr, h1]
  show lookupV ((invTrace g n).foldl (stepVals g.evaluate g.links g.nodes)
      ((invTrace g n).foldl (stepVals g.evaluate g.links g.nodes) g.values)) K =
    lookupV ((invTrace g n).foldl (stepVals g.evaluate g.links g.nodes)
      g.values) K
  have h := c9_agree g decl hwf hreg hcf hcd hreads hdecl (invTrace g n) Htopo
    g.values (invTrace g n).length (Nat.le_refl _) K
    (Or.inl fun _j hj hle => absurd hj (Nat.not_lt.2 hle))
  rw [List.take_length] at h
  exact h

/-- C9 counterexample: in the diamond `exDiamond` the breadth-first pass
evaluates node `1` before its supplier `2`, so the first invalidation
caches a stale `0` for output `(1, "out")` while the second caches `2` —
the two passes do not produce identical cached values. -/
theorem claim_C9_counterexample :
    lookupV (exDiamond.invalidate 0).values { node := 1, name := "out" } =
      some (some (Dyn.natV 0)) ∧
    lookupV ((exDiamond.invalidate 0).invalidate 0).values
        { node := 1, name := "out" } = some (some (Dyn.natV 2)) := by
  refine ⟨by decide, by decide⟩

theorem claim_C9_witness :
    WellFormed gOwned ∧
    TraceTopo gOwned.links (invTrace gOwned 0) ∧
    lookupV ((gOwned.invalidate 0).invalidate 0).values oC10 =
      lookupV (gOwned.invalidate 0).values oC10 := by
  have hreg : OwnerReg gOwned (fun t => t) := by
    intro m st h
    by_cases hm : m = 0
    · subst hm
      have hst : { id := 0, state := 0, position := ((0 : Int), (0 : Int)),
                    inputs := [{ node := 0, name := "in" }],
                    outputs := ([] : List OutputId) } = st := by
        simpa [gOwned, lookupN, lookupA] using h
      rw [← hst]
    · simp [gOwned, lookupN, lookupA, Ne.symm hm] at h
  have hdecl : ∀ m st, lookupN gOwned.nodes m = some st →
      st.outputs = ([] : List OutputId) := by
    intro m st h
    by_cases hm : m = 0
    · subst hm
      have hst : { id := 0, state := 0, position := ((0 : Int), (0 : Int)),
                    inputs := [{ node := 0, name := "in" }],
                    outputs := ([] : List OutputId) } = st := by
        simpa [gOwned, lookupN, lookupA] using h
      rw [← hst]
    · simp [gOwned, lookupN, lookupA, Ne.symm hm] at h
  exact ⟨by decide, by decide,
    claim_C9 gOwned 0 (fun _ => ([] : List OutputId)) (by decide)
      (fun _ _ => rfl) hreg (fun _ _ _ _ => rfl) (fun _ _ _ _ _ => rfl)
      (fun _t _links _v _v2 _h1 h2 K hK => h2 K hK) hdecl (by decide) oC10⟩

end NodeEditor